import Mathlib

/-!
Shallow embedding of the MMTI graduation-certificate intake app (src/main.py).

Strings are modelled as `List Char` (Unicode scalar values), dates as `Nat`
(day numbers, so `today + 1` is tomorrow), and the appointment ledger as a
`List AppRecord`.  Pure functions of the source are translated directly;
the Streamlit submission handler is translated as a pure pipeline function
that additionally returns the list of externally visible effects it
performed and the ledger store it leaves behind.
-/

set_option maxHeartbeats 1000000
set_option maxRecDepth 4000

/-! ### Configuration (src/main.py lines 41-45) -/

/-- The fixed slot catalog `TIME_SLOTS` (main.py line 41). -/
def TIME_SLOTS : List (String × String) :=
  [("09:00", "10:00"), ("10:00", "11:00"), ("11:00", "12:00"),
   ("13:30", "14:30"), ("14:30", "15:00")]

/-- `MAX_PER_SLOT` (main.py line 45). -/
def MAX_PER_SLOT : Nat := 20

/-- `MAX_PER_DAY` (main.py line 45). -/
def MAX_PER_DAY : Nat := 100

/-- The slot label `f"{start}-{end}"` built in the allocator loop (main.py line 170). -/
def slotLabel (p : String × String) : String := p.1 ++ "-" ++ p.2

/-! ### Name normalizer (main.py lines 186-193, `normalize_arabic_name`)

Each of the five `re.sub` steps becomes one Lean function.  `pyIsSpace` is
the set of characters matched by Python's `\s` (for `str` patterns) and
stripped by `str.strip()`: the Unicode whitespace characters. -/

/-- Python's Unicode whitespace class: the characters matched by `\s` in a
`str` regex and removed by `str.strip()` / split on by `str.split()`. -/
def pyIsSpace (c : Char) : Bool :=
  decide (0x9 ≤ c.toNat ∧ c.toNat ≤ 0xd) || decide (c.toNat = 0x20) ||
  decide (0x1c ≤ c.toNat ∧ c.toNat ≤ 0x1f) || decide (c.toNat = 0x85) ||
  decide (c.toNat = 0xa0) || decide (c.toNat = 0x1680) ||
  decide (0x2000 ≤ c.toNat ∧ c.toNat ≤ 0x200a) ||
  decide (c.toNat = 0x2028) || decide (c.toNat = 0x2029) ||
  decide (c.toNat = 0x202f) || decide (c.toNat = 0x205f) ||
  decide (c.toNat = 0x3000)

/-- Membership in the regex character range `ا-ي` (U+0627 ..= U+064A). -/
def isArabicLetter (c : Char) : Bool :=
  decide (0x627 ≤ c.toNat) && decide (c.toNat ≤ 0x64A)

/-- Step 1, `re.sub(r'^(ال)', '', name)` (main.py line 188): remove a single
leading occurrence of the two characters `ال`; `^` anchors the only possible
match at the start of the string. -/
def stripAl (l : List Char) : List Char :=
  match l with
  | a :: b :: rest => if a = 'ا' ∧ b = 'ل' then rest else l
  | _ => l

/-- Step 2, `re.sub(r'[أإآ]', 'ا', name)` (main.py line 189): fold every
hamza-bearing alef variant to bare alef. -/
def foldAlef (l : List Char) : List Char :=
  l.map (fun c => if c = 'أ' ∨ c = 'إ' ∨ c = 'آ' then 'ا' else c)

/-- Helper for step 3, `re.sub(r'ة$', 'ه', name)` (main.py line 190), acting
on the reversed string.  In Python, `$` (without `re.MULTILINE`) matches at
the end of the string and also just before a single newline that ends the
string, so a `ة` in either position is replaced by `ه`; this helper finds
that `ة` at the head (or after a single `\n`) of the reversed string. -/
def foldTaRev : List Char → Option (List Char)
  | [] => none
  | c :: rest =>
    if c = 'ة' then some ('ه' :: rest)
    else if c = '\n' then
      match rest with
      | [] => none
      | c2 :: rest2 => if c2 = 'ة' then some ('\n' :: 'ه' :: rest2) else none
    else none

/-- Step 3, `re.sub(r'ة$', 'ه', name)` (main.py line 190), assembled from the
reversed-string helper: when the helper finds a match the replaced reversed
string is reversed back, otherwise the string is unchanged. -/
def foldTa (l : List Char) : List Char :=
  match foldTaRev l.reverse with
  | some r => r.reverse
  | none => l

/-- The character class kept by step 4: `[ا-ي\s]`. -/
def keepChar (c : Char) : Bool := isArabicLetter c || pyIsSpace c

/-- Step 4, `re.sub(r'[^ا-ي\s]', '', name)` (main.py line 191): remove every
character that is neither an Arabic letter in `ا-ي` nor whitespace. -/
def filterKeep (l : List Char) : List Char := l.filter keepChar

/-- First half of step 5, `re.sub(r'\s+', ' ', name)` (main.py line 192):
replace every maximal run of whitespace by a single space. -/
def collapseWs : List Char → List Char
  | [] => []
  | [c] => if pyIsSpace c then [' '] else [c]
  | a :: b :: rest =>
    if pyIsSpace a then
      (if pyIsSpace b then collapseWs (b :: rest) else ' ' :: collapseWs (b :: rest))
    else a :: collapseWs (b :: rest)

/-- Drop leading whitespace (`str.strip()`, leading half). -/
def frontStrip (l : List Char) : List Char := l.dropWhile pyIsSpace

/-- Drop trailing whitespace (`str.strip()`, trailing half). -/
def backStrip (l : List Char) : List Char := (l.reverse.dropWhile pyIsSpace).reverse

/-- `str.strip()`: drop leading and trailing whitespace. -/
def stripStr (l : List Char) : List Char := backStrip (frontStrip l)

/-- `normalize_arabic_name` (main.py lines 186-193), for string input: the
five `re.sub`/`strip` steps in source order.  The Python function first
returns `""` for any non-string argument; the typed embedding only covers
string inputs. -/
def normalize_arabic_name (name : List Char) : List Char :=
  stripStr (collapseWs (filterKeep (foldTa (foldAlef (stripAl name)))))

/-- `str.replace(" ", "")`: remove every space character U+0020 (used to turn
a normalized name into a matching key, main.py lines 143, 197, 325, 332). -/
def removeSpaces (l : List Char) : List Char := l.filter (fun c => c ≠ ' ')

/-- Python `str.split()` with no arguments: split on runs of Unicode
whitespace, discarding empty tokens (used at main.py line 326). -/
def splitWs : List Char → List (List Char)
  | [] => []
  | [c] => if pyIsSpace c then [] else [[c]]
  | a :: b :: rest =>
    if pyIsSpace a then splitWs (b :: rest)
    else if pyIsSpace b then [a] :: splitWs rest
    else
      match splitWs (b :: rest) with
      | [] => [[a]]
      | w :: ws => (a :: w) :: ws

/-- Python `" ".join(parts)` (main.py line 331). -/
def joinSpace : List (List Char) → List Char
  | [] => []
  | [w] => w
  | w :: ws => w ++ ' ' :: joinSpace ws

/-! ### Spec-level normalizer (for comparison with §4.1 of the spec)

These definitions follow the wording of spec §4.1 step by step, with
independent formulations of each step, so that equality with
`normalize_arabic_name` is a genuine refinement statement. -/

/-- Spec §4.1 step 1: "Strip a single leading definite-article prefix (ال)
only from the start of the string." -/
def specStripArticle (l : List Char) : List Char :=
  if l.take 2 = ['ا', 'ل'] then l.drop 2 else l

/-- Spec §4.1 step 3 exactly as worded: "Fold a trailing tāʾ marbūṭa (ة) at
the end of the string to hāʾ (ه)" — only the literally last character. -/
def specFoldTrailingTa (l : List Char) : List Char :=
  if l.getLast? = some 'ة' then l.dropLast ++ ['ه'] else l

/-- Spec §4.1 step 3 as amended: fold a `ة` that is the last character, or
that immediately precedes a single string-final newline, to `ه`. -/
def specFoldTrailingTaAmended (l : List Char) : List Char :=
  if l.getLast? = some 'ة' then l.dropLast ++ ['ه']
  else if l.getLast? = some '\n' ∧ l.dropLast.getLast? = some 'ة' then
    l.dropLast.dropLast ++ ['ه', '\n']
  else l

/-- Spec §4.1 step 5: "Collapse runs of whitespace to a single space and trim
leading/trailing whitespace" — formulated as splitting into whitespace-free
words and rejoining them with single spaces. -/
def specCollapseTrim (l : List Char) : List Char := joinSpace (splitWs l)

/-- The §4.1 normalizer with step 3 read literally (a trailing `ة` only). -/
def specNormalizeLiteral (l : List Char) : List Char :=
  specCollapseTrim (filterKeep (specFoldTrailingTa (foldAlef (specStripArticle l))))

/-- The §4.1 normalizer with the amended step 3. -/
def specNormalizeAmended (l : List Char) : List Char :=
  specCollapseTrim (filterKeep (specFoldTrailingTaAmended (foldAlef (specStripArticle l))))

/-! ### Roster matcher (main.py lines 195-205, `match_name`)

The similarity scorer is external library code (`rapidfuzz`), not part of
this repository. -/

/-- Length of a longest common subsequence of two character lists. -/
def lcsLen : List Char → List Char → Nat
  | [], _ => 0
  | _ :: _, [] => 0
  | a :: as, b :: bs =>
    if a = b then lcsLen as bs + 1
    else max (lcsLen (a :: as) bs) (lcsLen as (b :: bs))
termination_by l1 l2 => l1.length + l2.length

/-- Modelled from the spec: `rapidfuzz.fuzz.ratio`, the normalized InDel
similarity on the 0-100 scale.  The InDel distance of `a` and `b` is
`|a| + |b| - 2 * lcs`, so the similarity is `200 * lcs / (|a| + |b|)`
(with two empty strings scoring 100). -/
def indelScore (a b : List Char) : ℚ :=
  if a.length + b.length = 0 then 100
  else 200 * (lcsLen a b : ℚ) / ((a.length : ℚ) + (b.length : ℚ))

/-- All contiguous substrings of a list. -/
def substrings (l : List Char) : List (List Char) :=
  l.tails.flatMap List.inits

/-- Modelled from the spec: `rapidfuzz.fuzz.partial_ratio` (spec glossary:
"a string-similarity score tolerant of one string being a
prefix/suffix/substring variant of the other, scaled 0-100"; §4.2:
"substring-style alignment").  The optimal alignment of the shorter string
inside the longer: the maximum `indelScore` of the shorter string against
any contiguous substring of the longer. -/
def prScore (a b : List Char) : ℚ :=
  if a.length ≤ b.length then ((substrings b).map (indelScore a)).foldl max 0
  else ((substrings a).map (indelScore b)).foldl max 0

/-- Modelled from the spec: `rapidfuzz.process.extract(query, names, limit=1,
score_cutoff=90, scorer=fuzz.partial_ratio)` (main.py line 199), reduced to
its head: the earliest highest-scoring choice together with its score.  On
ties the earlier list element wins. -/
def extract_best (q : List Char) : List (List Char) → Option (List Char × ℚ)
  | [] => none
  | n :: ns =>
    match extract_best q ns with
    | none => some (n, prScore q n)
    | some (bn, bs) => if bs ≤ prScore q n then some (n, prScore q n) else some (bn, bs)

/-- One roster record: the display `full_name` plus the precomputed matching
key column `normalized_name_match` (added by `load_student_data`,
main.py line 143). -/
structure StudentRow where
  full_name : List Char
  normalized_name_match : List Char
deriving DecidableEq

/-- The roster dataframe as seen by `match_name`: its rows, and whether the
`normalized_name_match` column exists (it is only added when the sheet has a
`full_name` column, main.py line 142). -/
structure StudentDF where
  has_key_column : Bool
  rows : List StudentRow
deriving DecidableEq

/-- `match_name(input_name, df)` (main.py lines 195-205).  `df is None` and a
missing key column short-circuit to `None`; otherwise the best
partial-ratio candidate above the 90 cutoff selects the first row whose key
equals it. -/
def match_name (input_name : List Char) (df : Option StudentDF) : Option StudentRow :=
  match df with
  | none => none
  | some d =>
    if d.has_key_column = false then none
    else
      let normalized_input := removeSpaces (normalize_arabic_name input_name)
      let names := d.rows.map (fun r => r.normalized_name_match)
      match extract_best normalized_input names with
      | none => none
      | some (bn, bs) =>
        if 90 ≤ bs then
          match d.rows.find? (fun r => r.normalized_name_match == bn) with
          | some row => some row
          | none => none
        else none

/-! ### Identity verifier (main.py lines 315-336, inline in `render_student_view`) -/

/-- Outcome of the OCR identity check, one constructor per distinct
user-visible failure (spec §4.3 / §7). -/
inductive VerificationResult where
  | ok
  | ocrUnavailable
  | nameInsufficient
  | identityMismatch
deriving DecidableEq

/-- Whether `needle` occurs at the very start of `hay`. -/
def segAt : List Char → List Char → Bool
  | [], _ => true
  | _ :: _, [] => false
  | a :: as, b :: bs => a == b && segAt as bs

/-- Python's substring test `needle in hay`: `needle` occurs contiguously
somewhere in `hay` (main.py line 334). -/
def hasSeg (needle : List Char) : List Char → Bool
  | [] => needle.isEmpty
  | c :: t => segAt needle (c :: t) || hasSeg needle t

/-- The OCR identity check of `render_student_view` (main.py lines 321-336) as
a pure function of the claimed name and the OCR text: empty OCR text first,
then the two-token minimum on `name.strip().split()`, then the substring
comparison of the space-stripped normalized keys. -/
def verifyIdentity (name ocr_text : List Char) : VerificationResult :=
  if ocr_text = [] then .ocrUnavailable
  else
    let normalized_ocr_text := removeSpaces (normalize_arabic_name ocr_text)
    let name_parts := splitWs (stripStr name)
    if name_parts.length < 2 then .nameInsufficient
    else
      let first_two_names := joinSpace (name_parts.take 2)
      let normalized_first_two := removeSpaces (normalize_arabic_name first_two_names)
      if hasSeg normalized_first_two normalized_ocr_text then .ok else .identityMismatch

/-! ### Slot allocator (main.py lines 149-184) -/

/-- One row of the `Appointments` worksheet: `[name, date, slot]`
(appended at main.py line 182). -/
structure AppRecord where
  name : List Char
  date : Nat
  slot : String
deriving DecidableEq

/-- `day_log`: the ledger records for one date (main.py line 167). -/
def dayLog (ledger : List AppRecord) (d : Nat) : List AppRecord :=
  ledger.filter (fun r => r.date == d)

/-- The number of ledger records for a given date and slot label. -/
def slotCount (ledger : List AppRecord) (d : Nat) (s : String) : Nat :=
  ((dayLog ledger d).filter (fun r => r.slot == s)).length

/-- One iteration of the allocator's date loop (main.py lines 167-173): if the
date's total record count is below `MAX_PER_DAY`, the first catalog slot
whose record count is below `MAX_PER_SLOT`; otherwise (day full, or every
slot full) `none`, and the loop moves to the next date. -/
def dayAvail (ledger : List AppRecord) (d : Nat) : Option String :=
  if (dayLog ledger d).length < MAX_PER_DAY then
    (TIME_SLOTS.map slotLabel).find?
      (fun s => decide (((dayLog ledger d).filter (fun r => r.slot == s)).length < MAX_PER_SLOT))
  else none

/-- The largest date mentioned in the ledger (0 for an empty ledger). -/
def maxDate (ledger : List AppRecord) : Nat :=
  (ledger.map (fun r => r.date)).foldr max 0

/-- Every ledger record's date is bounded by `maxDate`. -/
theorem date_le_maxDate (ledger : List AppRecord) (r : AppRecord) (hr : r ∈ ledger) :
    r.date ≤ maxDate ledger := by
  induction ledger with
  | nil => cases hr
  | cons a t ih =>
    rcases List.mem_cons.mp hr with h | h
    · simp [maxDate, h]
    · simp only [maxDate, List.map_cons, List.foldr_cons]
      exact le_max_of_le_right (ih h)

/-- If a date yields no slot, some record of the ledger has that date, so the
date is bounded by `maxDate`.  This is the termination argument of the
allocator's unbounded `while True` loop. -/
theorem dayAvail_none_le (ledger : List AppRecord) (d : Nat) (h : dayAvail ledger d = none) :
    d ≤ maxDate ledger := by
  by_contra hc
  push_neg at hc
  have hlog : dayLog ledger d = [] := by
    rw [dayLog, List.filter_eq_nil_iff]
    intro r hr
    have := date_le_maxDate ledger r hr
    simp only [beq_iff_eq]
    omega
  rw [dayAvail, hlog] at h
  simp [MAX_PER_DAY, MAX_PER_SLOT, TIME_SLOTS, slotLabel, List.find?] at h

/-- The `while True` date scan of `get_available_slot` (main.py lines
166-174), starting at date `d`: return the first date-slot pair `dayAvail`
accepts.  The source loop is unbounded; it is well-founded because every
date past `maxDate` has an empty day log. -/
def findSlotAux (ledger : List AppRecord) (d : Nat) : String × Nat :=
  match h : dayAvail ledger d with
  | some s => (s, d)
  | none => findSlotAux ledger (d + 1)
termination_by maxDate ledger + 1 - d
decreasing_by
  have := dayAvail_none_le ledger d h
  omega

/-- The pure core of `get_available_slot`: scan dates starting at
`today + 1` (`datetime.today().date() + timedelta(days=1)`, main.py
line 165). -/
def findSlot (ledger : List AppRecord) (today : Nat) : String × Nat :=
  findSlotAux ledger (today + 1)

/-- The state of the `Appointments` worksheet as the allocator sees it: no
sheets client at all, the worksheet tab missing, or a readable list of
records. -/
inductive LedgerStore where
  | noClient
  | worksheetMissing
  | ok (records : List AppRecord)
deriving DecidableEq

/-- The records visible in a ledger store. -/
def ledgerRecords : LedgerStore → List AppRecord
  | .ok records => records
  | _ => []

/-- `get_available_slot(gsheets_client)` (main.py lines 149-174) including its
store handling: `None` client and a missing `Appointments` worksheet both
return `(None, None)`, modelled as `none`; otherwise the date scan runs and
always returns a pair.  (A generic read exception instead scans an empty
ledger, main.py line 163-164; that branch is outside this model.) -/
def get_available_slot (st : LedgerStore) (today : Nat) : Option (String × Nat) :=
  match st with
  | .noClient => none
  | .worksheetMissing => none
  | .ok records => some (findSlot records today)

/-- `log_appointment(gsheets_client, name, slot, date)` (main.py lines
176-184): appends one row; a `None` client returns immediately, and any
append/open failure is caught and swallowed (`appendOk = false` models a
failing append).  The function never raises. -/
def log_appointment (st : LedgerStore) (appendOk : Bool) (name : List Char)
    (slot : String) (date : Nat) : LedgerStore :=
  match st with
  | .ok records => if appendOk then .ok (records ++ [⟨name, date, slot⟩]) else .ok records
  | s => s

/-! ### Request pipeline (main.py lines 282-379, `render_student_view`)

The model covers the `if submitted:` block: the page-level guards before it
(missing credentials, roster still loading) prevent the form from being
submitted at all, so the roster dataframe is present here.  Effects record
the externally visible operations in source order. -/

/-- Terminal pipeline outcomes (spec §7 taxonomy).  `renderFailure` is the
silent end of the handler when `generate_certificate` returns `None`. -/
inductive Outcome where
  | consentMissing
  | fieldsMissing
  | ocrUnavailable
  | nameInsufficient
  | identityMismatch
  | nameNotFound
  | slotsExhausted
  | renderFailure
  | documentIssued (slot : String) (date : Nat)
deriving DecidableEq

/-- Externally visible operations of the submission handler, in source
order: the uploaded-file saves (main.py lines 343-356), the roster lookup
`match_name` (line 358), the ledger read `get_available_slot` (line 367),
document generation (line 373), and the appointment append
`log_appointment` (line 377). -/
inductive Effect where
  | fileUpload
  | rosterLookup
  | ledgerRead
  | docGen
  | appendRecord
deriving DecidableEq

/-- Inputs of one submission: the consent checkbox, presence of the required
fields/uploads, the typed name, the OCR text extracted from the ID image,
the (present) roster dataframe, the ledger store, whether document
rendering succeeds, whether the ledger append succeeds, and today's date. -/
structure PipelineInput where
  agreement : Bool
  fieldsPresent : Bool
  name : List Char
  ocr_text : List Char
  df : StudentDF
  ledgerStore : LedgerStore
  docGenOk : Bool
  appendOk : Bool
  today : Nat

/-- Result of one submission: terminal outcome, effects performed (in
order), and the ledger store afterwards. -/
structure PipelineResult where
  outcome : Outcome
  effects : List Effect
  ledgerAfter : LedgerStore
deriving DecidableEq

/-- The `if submitted:` block of `render_student_view` (main.py lines
307-379): consent gate, field gate, OCR identity check, file uploads,
roster match, slot allocation, document generation, appointment logging. -/
def render_student_view_submit (inp : PipelineInput) : PipelineResult :=
  if inp.agreement = false then ⟨.consentMissing, [], inp.ledgerStore⟩
  else if inp.fieldsPresent = false then ⟨.fieldsMissing, [], inp.ledgerStore⟩
  else
    match verifyIdentity inp.name inp.ocr_text with
    | .ocrUnavailable => ⟨.ocrUnavailable, [], inp.ledgerStore⟩
    | .nameInsufficient => ⟨.nameInsufficient, [], inp.ledgerStore⟩
    | .identityMismatch => ⟨.identityMismatch, [], inp.ledgerStore⟩
    | .ok =>
      match match_name inp.name (some inp.df) with
      | none => ⟨.nameNotFound, [.fileUpload, .rosterLookup], inp.ledgerStore⟩
      | some matched =>
        match get_available_slot inp.ledgerStore inp.today with
        | none => ⟨.slotsExhausted, [.fileUpload, .rosterLookup, .ledgerRead], inp.ledgerStore⟩
        | some (slot, date) =>
          if inp.docGenOk then
            ⟨.documentIssued slot date,
             [.fileUpload, .rosterLookup, .ledgerRead, .docGen, .appendRecord],
             log_appointment inp.ledgerStore inp.appendOk matched.full_name slot date⟩
          else
            ⟨.renderFailure, [.fileUpload, .rosterLookup, .ledgerRead, .docGen], inp.ledgerStore⟩

/-! ### Concurrency model for the allocator (spec §5)

Each client runs `findSlot` on a snapshot of the ledger and then appends its
reservation; the two halves can interleave with other clients. -/

/-- A client's progress: not yet read, holding a computed (slot, date) pair,
or finished writing. -/
inductive Phase where
  | ready
  | holding (slot : String) (date : Nat)
  | finished
deriving DecidableEq

/-- Shared ledger plus each client's phase. -/
structure RaceState where
  ledger : List AppRecord
  clients : List Phase
deriving DecidableEq

/-- Interleaved execution of `findSlot`-then-reserve clients: a `read` step
runs `findSlot` on the current ledger, a `write` step appends the held
reservation.  Nothing forces a client's write to directly follow its
read. -/
inductive RaceStep (today : Nat) : RaceState → RaceState → Prop
  | read (led : List AppRecord) (cs : List Phase) (i : Nat)
      (h : cs.get? i = some .ready) :
      RaceStep today ⟨led, cs⟩
        ⟨led, cs.set i (.holding (findSlot led today).1 (findSlot led today).2)⟩
  | write (led : List AppRecord) (cs : List Phase) (i : Nat)
      (slot : String) (date : Nat) (n : List Char)
      (h : cs.get? i = some (.holding slot date)) :
      RaceStep today ⟨led, cs⟩ ⟨led ++ [⟨n, date, slot⟩], cs.set i .finished⟩

/-- Serialized execution: each client's append completes before the next
client's `findSlot` reads the ledger. -/
def seqReserve (today : Nat) (ledger : List AppRecord) (names : List (List Char)) :
    List AppRecord :=
  names.foldl
    (fun led n => led ++ [⟨n, (findSlot led today).2, (findSlot led today).1⟩]) ledger

/-- The concrete two-client racy start state used to refute the interleaved
cap claim: nineteen reservations already exist for tomorrow's first slot. -/
def raceInit : RaceState :=
  ⟨List.replicate 19 ⟨[], 1, "09:00-10:00"⟩, [.ready, .ready]⟩

/-! ### Lemmas about the whitespace machinery -/

/-- A space character that survives `collapseWs` unchanged does not exist:
`collapseWs` emits `' '` for whitespace runs and passes non-whitespace
through. -/
theorem mem_collapseWs (x : List Char) (c : Char) (hc : c ∈ collapseWs x) :
    c = ' ' ∨ (c ∈ x ∧ pyIsSpace c = false) := by
  induction x using collapseWs.induct with
  | case1 => simp [collapseWs] at hc
  | case2 d hd =>
    rw [collapseWs, if_pos hd] at hc
    simp at hc
    exact Or.inl hc
  | case3 d hd =>
    rw [collapseWs, if_neg hd] at hc
    simp at hc
    subst hc
    exact Or.inr ⟨by simp, by simpa using hd⟩
  | case4 a b rest ha hb ih =>
    rw [collapseWs, if_pos ha, if_pos hb] at hc
    rcases ih hc with h | ⟨h1, h2⟩
    · exact Or.inl h
    · exact Or.inr ⟨List.mem_cons_of_mem _ h1, h2⟩
  | case5 a b rest ha hb ih =>
    rw [collapseWs, if_pos ha, if_neg hb] at hc
    rcases List.mem_cons.mp hc with h | h
    · exact Or.inl h
    · rcases ih h with h' | ⟨h1, h2⟩
      · exact Or.inl h'
      · exact Or.inr ⟨List.mem_cons_of_mem _ h1, h2⟩
  | case6 a b rest ha ih =>
    rw [collapseWs, if_neg ha] at hc
    rcases List.mem_cons.mp hc with h | h
    · subst h
      exact Or.inr ⟨by simp, by simpa using ha⟩
    · rcases ih h with h' | ⟨h1, h2⟩
      · exact Or.inl h'
      · exact Or.inr ⟨List.mem_cons_of_mem _ h1, h2⟩

/-- `collapseWs` on a list with a non-whitespace head passes the head
through. -/
theorem collapseWs_cons_nonspace (a : Char) (l : List Char) (ha : ¬ pyIsSpace a = true) :
    collapseWs (a :: l) = a :: collapseWs l := by
  cases l with
  | nil => simp [collapseWs, ha]
  | cons b rest => rw [collapseWs, if_neg ha]

/-- `collapseWs` on a list with a whitespace head turns the whole leading run
into a single space. -/
theorem collapseWs_cons_space (b : Char) (rest : List Char) (hb : pyIsSpace b = true) :
    collapseWs (b :: rest) = ' ' :: collapseWs (rest.dropWhile pyIsSpace) := by
  induction rest generalizing b with
  | nil => rw [collapseWs, if_pos hb]; rfl
  | cons c r ih =>
    by_cases hc : pyIsSpace c
    · rw [collapseWs, if_pos hb, if_pos hc, ih c hc, List.dropWhile_cons_of_pos hc]
    · rw [collapseWs, if_pos hb, if_neg hc, List.dropWhile_cons_of_neg hc]

theorem frontStrip_nil : frontStrip [] = [] := rfl

theorem frontStrip_cons_space (a : Char) (l : List Char) (ha : pyIsSpace a = true) :
    frontStrip (a :: l) = frontStrip l := by
  simp [frontStrip, List.dropWhile_cons_of_pos ha]

theorem frontStrip_cons_nonspace (a : Char) (l : List Char) (ha : ¬ pyIsSpace a = true) :
    frontStrip (a :: l) = a :: l := by
  simp [frontStrip, List.dropWhile_cons_of_neg ha]

theorem backStrip_nil : backStrip [] = [] := rfl

/-- How `backStrip` acts on a cons cell. -/
theorem backStrip_cons (a : Char) (l : List Char) :
    backStrip (a :: l) =
      if backStrip l = [] then (if pyIsSpace a then [] else [a]) else a :: backStrip l := by
  have : (a :: l).reverse = l.reverse ++ [a] := by simp
  rw [backStrip, this, List.dropWhile_append]
  by_cases h : backStrip l = []
  · have he : (l.reverse.dropWhile pyIsSpace).isEmpty = true := by
      have : l.reverse.dropWhile pyIsSpace = [] := by
        have := congrArg List.reverse h
        simpa [backStrip] using this
      simp [this]
    rw [if_pos he, if_pos h]
    by_cases ha : pyIsSpace a
    · simp [List.dropWhile, ha]
    · simp [List.dropWhile, ha]
  · have he : (l.reverse.dropWhile pyIsSpace).isEmpty = false := by
      rcases hne : l.reverse.dropWhile pyIsSpace with _ | ⟨x, t⟩
      · exact absurd (by simp [backStrip, hne]) h
      · simp
    rw [if_neg (by simp [he]), if_neg h]
    simp [backStrip]

theorem backStrip_cons_nonspace (a : Char) (l : List Char) (ha : ¬ pyIsSpace a = true) :
    backStrip (a :: l) = a :: backStrip l := by
  rw [backStrip_cons]
  by_cases h : backStrip l = []
  · rw [if_pos h, if_neg ha, h]
  · rw [if_neg h]

theorem backStrip_cons_nonspace_ne_nil (a : Char) (l : List Char) (ha : ¬ pyIsSpace a = true) :
    backStrip (a :: l) ≠ [] := by
  rw [backStrip_cons_nonspace a l ha]
  simp

/-- Characters of `stripStr l` come from `l`. -/
theorem mem_stripStr (l : List Char) (c : Char) (hc : c ∈ stripStr l) : c ∈ l := by
  have h1 : c ∈ frontStrip l := by
    have := (List.dropWhile_sublist pyIsSpace (l := (frontStrip l).reverse)).subset
    have h2 : c ∈ (frontStrip l).reverse.dropWhile pyIsSpace := by
      rw [stripStr, backStrip] at hc
      exact List.mem_reverse.mp hc
    exact List.mem_reverse.mp (this h2)
  exact (List.dropWhile_sublist pyIsSpace (l := l)).subset h1

theorem splitWs_cons_space (a : Char) (l : List Char) (ha : pyIsSpace a = true) :
    splitWs (a :: l) = splitWs l := by
  cases l with
  | nil => simp [splitWs, ha]
  | cons b rest => rw [splitWs, if_pos ha]

theorem splitWs_dropWhile (l : List Char) :
    splitWs (l.dropWhile pyIsSpace) = splitWs l := by
  induction l with
  | nil => rfl
  | cons a t ih =>
    by_cases ha : pyIsSpace a
    · rw [List.dropWhile_cons_of_pos ha, ih, splitWs_cons_space a t ha]
    · rw [List.dropWhile_cons_of_neg ha]

theorem splitWs_ne_nil (c : Char) (r : List Char) (hc : ¬ pyIsSpace c = true) :
    splitWs (c :: r) ≠ [] := by
  cases r with
  | nil => rw [splitWs, if_neg hc]; simp
  | cons b rest =>
    rw [splitWs, if_neg hc]
    by_cases hb : pyIsSpace b
    · rw [if_pos hb]; simp
    · rw [if_neg hb]
      cases splitWs (b :: rest) <;> simp

theorem joinSpace_cons_cons (a : Char) (w : List Char) (ws : List (List Char)) :
    joinSpace ((a :: w) :: ws) = a :: joinSpace (w :: ws) := by
  cases ws with
  | nil => rfl
  | cons w2 ws2 => rfl

/-- Every token produced by `splitWs` is a nonempty run of non-whitespace
characters. -/
theorem splitWs_words (x : List Char) :
    ∀ w ∈ splitWs x, w ≠ [] ∧ ∀ c ∈ w, ¬ pyIsSpace c = true := by
  induction x using splitWs.induct with
  | case1 => simp [splitWs]
  | case2 c hc => simp [splitWs, hc]
  | case3 c hc =>
    intro w hw
    simp [splitWs, hc] at hw
    subst hw
    exact ⟨by simp, by simpa using hc⟩
  | case4 a b rest ha ih =>
    intro w hw
    rw [splitWs, if_pos ha] at hw
    exact ih w hw
  | case5 a b rest ha hb ih =>
    intro w hw
    rw [splitWs, if_neg ha, if_pos hb] at hw
    rcases List.mem_cons.mp hw with h | h
    · subst h
      refine ⟨by simp, ?_⟩
      intro c hc
      simp at hc
      subst hc
      simpa using ha
    · exact ih w h
  | case6 a b rest ha hb hmatch ih =>
    exact absurd hmatch (splitWs_ne_nil b rest hb)
  | case7 a b rest ha hb w0 ws0 hmatch ih =>
    intro w hw
    rw [splitWs, if_neg ha, if_neg hb, hmatch] at hw
    rcases List.mem_cons.mp hw with h | h
    · subst h
      have hw0 := ih w0 (by rw [hmatch]; exact List.mem_cons_self _ _)
      refine ⟨by simp, ?_⟩
      intro c hc
      rcases List.mem_cons.mp hc with h' | h'
      · subst h'; simpa using ha
      · exact hw0.2 c h'
    · exact ih w (by rw [hmatch]; exact List.mem_cons_of_mem _ h)

/-- `splitWs` of a single nonempty whitespace-free word is that word alone. -/
theorem splitWs_word (w : List Char) (hne : w ≠ []) (hns : ∀ c ∈ w, ¬ pyIsSpace c = true) :
    splitWs w = [w] := by
  induction w with
  | nil => exact absurd rfl hne
  | cons c t ih =>
    have hc : ¬ pyIsSpace c = true := hns c (by simp)
    cases t with
    | nil => simp [splitWs, hc]
    | cons c2 t2 =>
      have hc2 : ¬ pyIsSpace c2 = true := hns c2 (by simp)
      have ht : splitWs (c2 :: t2) = [c2 :: t2] := by
        refine ih (by simp) ?_
        intro d hd
        exact hns d (List.mem_cons_of_mem _ hd)
      rw [splitWs, if_neg hc, if_neg hc2, ht]

/-- Splitting a whitespace-free word followed by a space and a remainder
peels off exactly that word. -/
theorem splitWs_word_append (w : List Char) (t : List Char) (hne : w ≠ [])
    (hns : ∀ c ∈ w, ¬ pyIsSpace c = true) :
    splitWs (w ++ ' ' :: t) = w :: splitWs t := by
  induction w with
  | nil => exact absurd rfl hne
  | cons c w' ih =>
    have hc : ¬ pyIsSpace c = true := hns c (by simp)
    cases w' with
    | nil =>
      have hsp : pyIsSpace ' ' = true := by decide
      show splitWs (c :: ' ' :: t) = [c] :: splitWs t
      rw [splitWs, if_neg hc, if_pos hsp]
    | cons c2 w'' =>
      have hc2 : ¬ pyIsSpace c2 = true := hns c2 (by simp)
      have ht : splitWs (c2 :: (w'' ++ ' ' :: t)) = (c2 :: w'') :: splitWs t := by
        have := ih (by simp) (fun d hd => hns d (List.mem_cons_of_mem _ hd))
        simpa using this
      show splitWs (c :: c2 :: (w'' ++ ' ' :: t)) = (c :: c2 :: w'') :: splitWs t
      rw [splitWs, if_neg hc, if_neg hc2, ht]

/-- `splitWs` is a retraction of `joinSpace` on lists of nonempty
whitespace-free words. -/
theorem splitWs_joinSpace (ws : List (List Char))
    (h : ∀ w ∈ ws, w ≠ [] ∧ ∀ c ∈ w, ¬ pyIsSpace c = true) :
    splitWs (joinSpace ws) = ws := by
  induction ws with
  | nil => rfl
  | cons w ws' ih =>
    have hw := h w (by simp)
    cases ws' with
    | nil => exact splitWs_word w hw.1 hw.2
    | cons w2 ws'' =>
      have ht : splitWs (joinSpace (w2 :: ws'')) = w2 :: ws'' := by
        refine ih ?_
        intro v hv
        exact h v (List.mem_cons_of_mem _ hv)
      show splitWs (w ++ ' ' :: joinSpace (w2 :: ws'')) = w :: w2 :: ws''
      rw [splitWs_word_append w _ hw.1 hw.2, ht]

/-- `joinSpace` of a nonempty list of nonempty words is nonempty. -/
theorem joinSpace_eq_nil_iff (ws : List (List Char)) (h : ∀ w ∈ ws, w ≠ []) :
    joinSpace ws = [] ↔ ws = [] := by
  cases ws with
  | nil => simp [joinSpace]
  | cons w ws' =>
    cases ws' with
    | nil =>
      have := h w (by simp)
      simp [joinSpace, this]
    | cons w2 ws'' =>
      have := h w (by simp)
      constructor
      · intro hj
        have hj' : w ++ ' ' :: joinSpace (w2 :: ws'') = [] := hj
        exact absurd (List.append_eq_nil.mp hj').1 this
      · intro hj
        simp at hj

/-- The head of a `dropWhile pyIsSpace` result is not whitespace. -/
theorem dropWhile_head_not (l : List Char) (c : Char) (r : List Char)
    (h : l.dropWhile pyIsSpace = c :: r) : ¬ pyIsSpace c = true := by
  induction l with
  | nil => simp at h
  | cons a t ih =>
    by_cases ha : pyIsSpace a
    · rw [List.dropWhile_cons_of_pos ha] at h
      exact ih h
    · rw [List.dropWhile_cons_of_neg ha] at h
      injection h with h1 _
      subst h1
      exact ha

/-- `frontStrip` does nothing to the output of `collapseWs` applied to a
whitespace-stripped list. -/
theorem frontStrip_collapseWs_dropWhile (rest : List Char) :
    frontStrip (collapseWs (rest.dropWhile pyIsSpace)) =
      collapseWs (rest.dropWhile pyIsSpace) := by
  cases hu : rest.dropWhile pyIsSpace with
  | nil => rfl
  | cons c r =>
    have hc := dropWhile_head_not rest c r hu
    rw [collapseWs_cons_nonspace c r hc, frontStrip_cons_nonspace c _ hc]

/-- `stripStr` on a list with non-whitespace head keeps the head and strips
only the tail's trailing whitespace. -/
theorem stripStr_cons_nonspace (a : Char) (l : List Char) (ha : ¬ pyIsSpace a = true) :
    stripStr (a :: l) = a :: backStrip l := by
  rw [stripStr, frontStrip_cons_nonspace a l ha, backStrip_cons_nonspace a l ha]

/-- The `.strip()` of the whitespace-collapsed string equals the
split-and-rejoin formulation of spec §4.1 step 5. -/
theorem stripStr_collapseWs_eq (x : List Char) :
    stripStr (collapseWs x) = joinSpace (splitWs x) := by
  induction x using collapseWs.induct with
  | case1 => rfl
  | case2 d hd =>
    have h1 : collapseWs [d] = [' '] := by simp [collapseWs, hd]
    have h2 : splitWs [d] = [] := by simp [splitWs, hd]
    rw [h1, h2]
    decide
  | case3 d hd =>
    have h1 : collapseWs [d] = [d] := by simp [collapseWs, hd]
    have h2 : splitWs [d] = [[d]] := by simp [splitWs, hd]
    rw [h1, h2, stripStr, frontStrip_cons_nonspace d [] hd,
      backStrip_cons_nonspace d [] hd, backStrip_nil]
    rfl
  | case4 a b rest ha hb ih =>
    rw [collapseWs, if_pos ha, if_pos hb, splitWs_cons_space a (b :: rest) ha]
    exact ih
  | case5 a b rest ha hb ih =>
    rw [collapseWs, if_pos ha, if_neg hb, splitWs_cons_space a (b :: rest) ha]
    have hcb : collapseWs (b :: rest) = b :: collapseWs rest :=
      collapseWs_cons_nonspace b rest hb
    rw [stripStr, frontStrip_cons_space _ _ (by decide), hcb,
      frontStrip_cons_nonspace b _ hb, ← hcb, ← ih, hcb, stripStr,
      frontStrip_cons_nonspace b _ hb]
  | case6 a b rest ha ih =>
    rw [collapseWs, if_neg ha, stripStr_cons_nonspace a _ ha]
    by_cases hb : pyIsSpace b
    · -- a word character, then a whitespace run
      have hcoll : collapseWs (b :: rest) = ' ' :: collapseWs (rest.dropWhile pyIsSpace) :=
        collapseWs_cons_space b rest hb
      have hT : backStrip (collapseWs (rest.dropWhile pyIsSpace)) =
          joinSpace (splitWs rest) := by
        have h5 := ih
        rw [stripStr, hcoll, frontStrip_cons_space _ _ (by decide),
          frontStrip_collapseWs_dropWhile rest, splitWs_cons_space b rest hb] at h5
        exact h5
      have hB : backStrip (collapseWs (b :: rest)) =
          if joinSpace (splitWs rest) = [] then []
          else ' ' :: joinSpace (splitWs rest) := by
        rw [hcoll, backStrip_cons, hT]
        by_cases hnil : joinSpace (splitWs rest) = []
        · rw [if_pos hnil, if_pos hnil, if_pos (by decide)]
        · rw [if_neg hnil, if_neg hnil]
      have hsplit : splitWs (a :: b :: rest) = [a] :: splitWs rest := by
        rw [splitWs, if_neg ha, if_pos hb]
      rw [hB, hsplit]
      cases hsr : splitWs rest with
      | nil => rw [hsr] at *; simp [joinSpace]
      | cons w ws =>
        have hwne : joinSpace (w :: ws) ≠ [] := by
          rw [Ne, joinSpace_eq_nil_iff]
          · simp
          · intro v hv
            exact (splitWs_words rest v (hsr ▸ hv)).1
        rw [if_neg hwne]
        rfl
    · -- two adjacent word characters
      have hcb : collapseWs (b :: rest) = b :: collapseWs rest :=
        collapseWs_cons_nonspace b rest hb
      have hback : backStrip (collapseWs (b :: rest)) = joinSpace (splitWs (b :: rest)) := by
        have h5 := ih
        rw [stripStr, hcb, frontStrip_cons_nonspace b _ hb, ← hcb] at h5
        exact h5
      rw [hback]
      cases hsp : splitWs (b :: rest) with
      | nil => exact absurd hsp (splitWs_ne_nil b rest hb)
      | cons w ws =>
        have : splitWs (a :: b :: rest) = (a :: w) :: ws := by
          rw [splitWs, if_neg ha, if_neg hb, hsp]
        rw [this, joinSpace_cons_cons]

/-- Step 5 (`collapse` + `strip`) is idempotent. -/
theorem stripStr_collapseWs_idem (z : List Char) :
    stripStr (collapseWs (stripStr (collapseWs z))) = stripStr (collapseWs z) := by
  rw [stripStr_collapseWs_eq z, stripStr_collapseWs_eq (joinSpace (splitWs z)),
    splitWs_joinSpace (splitWs z) (splitWs_words z)]

/-- `stripAl` agrees with the spec wording of §4.1 step 1. -/
theorem stripAl_eq_spec (l : List Char) : stripAl l = specStripArticle l := by
  match l with
  | [] => rfl
  | [a] =>
    rw [specStripArticle, if_neg (by simp)]
    rfl
  | a :: b :: r =>
    have htake : (a :: b :: r).take 2 = [a, b] := rfl
    by_cases h : a = 'ا' ∧ b = 'ل'
    · obtain ⟨h1, h2⟩ := h
      subst h1; subst h2
      rw [stripAl, if_pos ⟨rfl, rfl⟩, specStripArticle, if_pos htake]
      rfl
    · rw [stripAl, if_neg h, specStripArticle, htake,
        if_neg (by intro hcontra; simp at hcontra; exact h hcontra)]

/-- `foldAlef` fixes any list without hamza-bearing alef variants. -/
theorem foldAlef_eq_self (l : List Char) (h : ∀ c ∈ l, ¬(c = 'أ' ∨ c = 'إ' ∨ c = 'آ')) :
    foldAlef l = l := by
  induction l with
  | nil => rfl
  | cons a t ih =>
    rw [foldAlef, List.map_cons, if_neg (h a (by simp))]
    have := ih (fun c hc => h c (List.mem_cons_of_mem _ hc))
    rw [foldAlef] at this
    rw [this]

/-- `foldTa` agrees with the amended spec wording of §4.1 step 3. -/
theorem foldTa_eq_specAmended (l : List Char) : foldTa l = specFoldTrailingTaAmended l := by
  rcases hr : l.reverse with _ | ⟨c, rest⟩
  · have hl : l = [] := by simpa using congrArg List.reverse hr
    subst hl
    rfl
  · have hl : l = rest.reverse ++ [c] := by
      rw [← List.reverse_reverse l, hr, List.reverse_cons]
    have hlast : l.getLast? = some c := by rw [hl]; exact List.getLast?_concat _
    have hdrop : l.dropLast = rest.reverse := by rw [hl]; exact List.dropLast_concat ..
    rw [foldTa, hr]
    by_cases hc : c = 'ة'
    · subst hc
      have hv : foldTaRev ('ة' :: rest) = some ('ه' :: rest) := rfl
      rw [hv]
      show ('ه' :: rest).reverse = specFoldTrailingTaAmended l
      rw [specFoldTrailingTaAmended, if_pos hlast, hdrop, List.reverse_cons]
    · by_cases hn : c = '\n'
      · subst hn
        have hnot1 : ¬ l.getLast? = some 'ة' := by
          rw [hlast]
          intro hcontra
          exact hc (Option.some.inj hcontra)
        rcases rest with _ | ⟨c2, rest2⟩
        · have hv : foldTaRev ['\n'] = none := rfl
          rw [hv]
          show l = specFoldTrailingTaAmended l
          rw [specFoldTrailingTaAmended, if_neg hnot1, if_neg (by rw [hdrop]; simp)]
        · have hlast2 : l.dropLast.getLast? = some c2 := by
            rw [hdrop, List.reverse_cons]
            exact List.getLast?_concat _
          by_cases hc2 : c2 = 'ة'
          · subst hc2
            have hv : foldTaRev ('\n' :: 'ة' :: rest2) = some ('\n' :: 'ه' :: rest2) := rfl
            rw [hv]
            show ('\n' :: 'ه' :: rest2).reverse = specFoldTrailingTaAmended l
            rw [specFoldTrailingTaAmended, if_neg hnot1, if_pos ⟨hlast, hlast2⟩, hdrop]
            simp [List.reverse_cons, List.dropLast_concat]
          · have hv : foldTaRev ('\n' :: c2 :: rest2) = none := by
              show (if c2 = 'ة' then some ('\n' :: 'ه' :: rest2) else none) = none
              rw [if_neg hc2]
            rw [hv]
            show l = specFoldTrailingTaAmended l
            rw [specFoldTrailingTaAmended, if_neg hnot1, if_neg (by
              intro hcontra
              rw [hlast2] at hcontra
              exact hc2 (Option.some.inj hcontra.2))]
      · have hv : foldTaRev (c :: rest) = none := by
          rcases rest with _ | ⟨c2, rest2⟩
          · show (if c = 'ة' then some ['ه'] else if c = '\n' then none else none) = none
            rw [if_neg hc, if_neg hn]
          · show (if c = 'ة' then some ('ه' :: c2 :: rest2)
                  else if c = '\n' then
                    (if c2 = 'ة' then some ('\n' :: 'ه' :: rest2) else none)
                  else none) = none
            rw [if_neg hc, if_neg hn]
        rw [hv]
        show l = specFoldTrailingTaAmended l
        rw [specFoldTrailingTaAmended,
          if_neg (by rw [hlast]; intro h; exact hc (Option.some.inj h)),
          if_neg (by rw [hlast]; intro h; exact hn (Option.some.inj h.1))]

/-- The source normalizer coincides with the §4.1 spec description, with
step 3 amended to cover a `ة` just before a string-final newline. -/
theorem normalize_eq_specAmended (l : List Char) :
    normalize_arabic_name l = specNormalizeAmended l := by
  rw [normalize_arabic_name, specNormalizeAmended, stripAl_eq_spec, foldTa_eq_specAmended,
    specCollapseTrim, stripStr_collapseWs_eq]

/-- Every character of a normalized name is a space or an Arabic letter of
the kept range. -/
theorem mem_normalize (x : List Char) (c : Char) (hc : c ∈ normalize_arabic_name x) :
    c = ' ' ∨ (isArabicLetter c = true ∧ pyIsSpace c = false) := by
  rw [normalize_arabic_name] at hc
  have h1 := mem_stripStr _ c hc
  rcases mem_collapseWs _ c h1 with h | ⟨h2, h3⟩
  · exact Or.inl h
  · rw [filterKeep] at h2
    have hk := List.of_mem_filter h2
    rw [keepChar] at hk
    rcases Bool.or_eq_true_iff.mp hk with h' | h'
    · exact Or.inr ⟨h', h3⟩
    · rw [h'] at h3; cases h3

/-- A list of space/Arabic-letter characters that is not touched by steps
1-4 and is already collapse/strip-normal is a fixed point of the
normalizer. -/
theorem normalize_arabic_name_fixed (y : List Char)
    (hmem : ∀ c ∈ y, c = ' ' ∨ (isArabicLetter c = true ∧ pyIsSpace c = false))
    (h1 : y.take 2 ≠ ['ا', 'ل'])
    (h2 : y.getLast? ≠ some 'ة')
    (h5 : stripStr (collapseWs y) = y) :
    normalize_arabic_name y = y := by
  have hsa : stripAl y = y := by rw [stripAl_eq_spec, specStripArticle, if_neg h1]
  have hfa : foldAlef y = y := by
    apply foldAlef_eq_self
    intro c hc hbad
    rcases hmem c hc with h | ⟨ha, _⟩
    · subst h
      rcases hbad with h' | h' | h' <;> exact absurd h' (by decide)
    · rcases hbad with h' | h' | h' <;> (subst h'; exact absurd ha (by decide))
  have hnl : ¬ y.getLast? = some '\n' := by
    intro hcontra
    have hin := List.mem_of_mem_getLast? hcontra
    rcases hmem _ hin with h | ⟨ha, _⟩
    · exact absurd h (by decide)
    · exact absurd ha (by decide)
  have hft : foldTa y = y := by
    rw [foldTa_eq_specAmended, specFoldTrailingTaAmended, if_neg h2,
      if_neg (fun hcontra => hnl hcontra.1)]
  have hfk : filterKeep y = y := by
    apply List.filter_eq_self.mpr
    intro c hc
    rcases hmem c hc with h | ⟨ha, _⟩
    · subst h; decide
    · rw [keepChar, ha]; rfl
  rw [normalize_arabic_name, hsa, hfa, hft, hfk, h5]

/-! ### Lemmas about the matcher -/

theorem lcsLen_le_left (a b : List Char) : lcsLen a b ≤ a.length := by
  induction a, b using lcsLen.induct with
  | case1 => simp [lcsLen]
  | case2 => simp [lcsLen]
  | case3 as c bs ih => simp [lcsLen]; omega
  | case4 a as b bs h ih1 ih2 =>
    simp only [lcsLen, if_neg h]
    rw [Nat.max_le]
    refine ⟨ih1, ?_⟩
    calc lcsLen as (b :: bs) ≤ as.length := ih2
    _ ≤ (a :: as).length := by simp

theorem lcsLen_le_right (a b : List Char) : lcsLen a b ≤ b.length := by
  induction a, b using lcsLen.induct with
  | case1 => simp [lcsLen]
  | case2 => simp [lcsLen]
  | case3 as c bs ih => simp [lcsLen]; omega
  | case4 a as b bs h ih1 ih2 =>
    simp only [lcsLen, if_neg h]
    rw [Nat.max_le]
    refine ⟨?_, ih2⟩
    calc lcsLen (a :: as) bs ≤ bs.length := ih1
    _ ≤ (b :: bs).length := by simp

theorem lcsLen_self (l : List Char) : lcsLen l l = l.length := by
  induction l with
  | nil => simp [lcsLen]
  | cons a t ih => simp [lcsLen, ih]

/-- Normalized InDel similarity never exceeds 100. -/
theorem indelScore_le_100 (a b : List Char) : indelScore a b ≤ 100 := by
  rw [indelScore]
  split
  · exact le_refl _
  · next h =>
    have hpos : (0 : ℚ) < (a.length : ℚ) + (b.length : ℚ) := by
      have : 0 < a.length + b.length := Nat.pos_of_ne_zero h
      exact_mod_cast this
    rw [div_le_iff hpos]
    have h1 : (lcsLen a b : ℚ) ≤ (a.length : ℚ) := by exact_mod_cast lcsLen_le_left a b
    have h2 : (lcsLen a b : ℚ) ≤ (b.length : ℚ) := by exact_mod_cast lcsLen_le_right a b
    linarith

/-- Exact matches score 100. -/
theorem indelScore_self (l : List Char) : indelScore l l = 100 := by
  rw [indelScore]
  split
  · rfl
  · next h =>
    rw [lcsLen_self]
    have hl : (0 : ℚ) < (l.length : ℚ) := by
      have : l.length ≠ 0 := by omega
      have : 0 < l.length := Nat.pos_of_ne_zero this
      exact_mod_cast this
    field_simp
    ring

theorem le_foldl_max (l : List ℚ) (a x : ℚ) (hx : x ∈ l) : x ≤ l.foldl max a := by
  induction l generalizing a with
  | nil => cases hx
  | cons y t ih =>
    rcases List.mem_cons.mp hx with h | h
    · subst h
      have hbase : ∀ (b : ℚ) (t' : List ℚ), b ≤ t'.foldl max b := by
        intro b t'
        induction t' generalizing b with
        | nil => exact le_refl _
        | cons z t'' ih' =>
          calc b ≤ max b z := le_max_left _ _
          _ ≤ t''.foldl max (max b z) := ih' _
      calc x ≤ max a x := le_max_right _ _
      _ ≤ t.foldl max (max a x) := hbase _ _
    · exact ih (max a y) h

theorem foldl_max_le (l : List ℚ) (a c : ℚ) (ha : a ≤ c) (h : ∀ x ∈ l, x ≤ c) :
    l.foldl max a ≤ c := by
  induction l generalizing a with
  | nil => exact ha
  | cons y t ih =>
    refine ih (max a y) (max_le ha (h y (by simp))) ?_
    intro x hx
    exact h x (List.mem_cons_of_mem _ hx)

theorem self_mem_substrings (l : List Char) : l ∈ substrings l := by
  rw [substrings, List.mem_flatMap]
  exact ⟨l, (List.mem_tails l l).mpr (List.suffix_refl l),
    (List.mem_inits l l).mpr (List.prefix_refl l)⟩

/-- A key matched against itself gets partial-ratio score 100. -/
theorem prScore_self (l : List Char) : prScore l l = 100 := by
  rw [prScore, if_pos (le_refl _)]
  apply le_antisymm
  · apply foldl_max_le
    · norm_num
    · intro x hx
      obtain ⟨s, _, rfl⟩ := List.mem_map.mp hx
      exact indelScore_le_100 l s
  · have hmem : indelScore l l ∈ (substrings l).map (indelScore l) :=
      List.mem_map_of_mem _ (self_mem_substrings l)
    have h := le_foldl_max _ 0 _ hmem
    rwa [indelScore_self] at h

theorem extract_best_cons_isSome (q n : List Char) (t : List (List Char)) :
    (extract_best q (n :: t)).isSome = true := by
  simp only [extract_best]
  cases extract_best q t with
  | none => rfl
  | some p =>
    obtain ⟨bn, bs⟩ := p
    show (if bs ≤ prScore q n then some (n, prScore q n) else some (bn, bs)).isSome = true
    split <;> rfl

theorem extract_best_eq_none (q : List Char) (ns : List (List Char)) :
    extract_best q ns = none ↔ ns = [] := by
  cases ns with
  | nil => simp [extract_best]
  | cons n t =>
    constructor
    · intro h
      have hs := extract_best_cons_isSome q n t
      rw [h] at hs
      simp at hs
    · intro h
      exact absurd h (by simp)

/-- The head of `extract_best` is a choice with the maximal partial-ratio
score. -/
theorem extract_best_some (q : List Char) (ns : List (List Char)) (bn : List Char) (bs : ℚ)
    (h : extract_best q ns = some (bn, bs)) :
    bn ∈ ns ∧ bs = prScore q bn ∧ ∀ n ∈ ns, prScore q n ≤ bs := by
  induction ns generalizing bn bs with
  | nil => simp [extract_best] at h
  | cons n t ih =>
    simp only [extract_best] at h
    cases he : extract_best q t with
    | none =>
      rw [he] at h
      have ht : t = [] := (extract_best_eq_none q t).mp he
      have h' : some (n, prScore q n) = some (bn, bs) := h
      injection h' with hpair
      injection hpair with h1 h2
      subst h1; subst h2; subst ht
      exact ⟨by simp, rfl, by simp⟩
    | some p =>
      obtain ⟨bn', bs'⟩ := p
      rw [he] at h
      obtain ⟨hmem, hsc, hmax⟩ := ih bn' bs' he
      have h' : (if bs' ≤ prScore q n then some (n, prScore q n)
                 else some (bn', bs')) = some (bn, bs) := h
      split at h'
      · next hle =>
        injection h' with hpair
        injection hpair with h1 h2
        subst h1; subst h2
        refine ⟨by simp, rfl, ?_⟩
        intro m hm
        rcases List.mem_cons.mp hm with h2 | h2
        · subst h2; exact le_refl _
        · exact le_trans (hmax m h2) hle
      · next hlt =>
        injection h' with hpair
        injection hpair with h1 h2
        subst h1; subst h2
        refine ⟨List.mem_cons_of_mem _ hmem, hsc, ?_⟩
        intro m hm
        rcases List.mem_cons.mp hm with h2 | h2
        · subst h2
          exact le_of_not_le hlt
        · exact hmax m h2

/-- Decomposition of a successful `find?`: the found element satisfies the
predicate and everything before it refutes it. -/
theorem find?_decomp {α : Type} (p : α → Bool) (l : List α) (a : α) (h : l.find? p = some a) :
    p a = true ∧ ∃ pre post, l = pre ++ a :: post ∧ ∀ x ∈ pre, p x = false := by
  induction l with
  | nil => simp at h
  | cons b t ih =>
    by_cases hb : p b
    · rw [List.find?_cons_of_pos _ hb] at h
      injection h with h
      subst h
      exact ⟨hb, [], t, rfl, by simp⟩
    · rw [List.find?_cons_of_neg _ (by simpa using hb)] at h
      obtain ⟨h1, pre, post, heq, hpre⟩ := ih h
      refine ⟨h1, b :: pre, post, by simp [heq], ?_⟩
      intro x hx
      rcases List.mem_cons.mp hx with h' | h'
      · subst h'
        simpa using hb
      · exact hpre x h'

/-! ### Lemmas about the verifier's substring test -/

theorem segAt_iff (n : List Char) : ∀ h, segAt n h = true ↔ ∃ rest, h = n ++ rest := by
  induction n with
  | nil =>
    intro h
    simp [segAt]
  | cons a as ih =>
    intro h
    cases h with
    | nil =>
      constructor
      · intro hcontra
        exact absurd hcontra (by rw [segAt]; simp)
      · rintro ⟨rest, hrest⟩
        exact absurd hrest (by simp)
    | cons b bs =>
      rw [segAt, Bool.and_eq_true]
      constructor
      · rintro ⟨hab, hseg⟩
        have hab' : a = b := by simpa using hab
        obtain ⟨rest, hrest⟩ := (ih bs).mp hseg
        subst hab'
        exact ⟨rest, by rw [hrest, List.cons_append]⟩
      · rintro ⟨rest, hrest⟩
        rw [List.cons_append] at hrest
        injection hrest with h1 h2
        subst h1
        exact ⟨by simp, (ih bs).mpr ⟨rest, h2⟩⟩

/-- Python's `in`: `hasSeg n hay` holds exactly when `n` occurs contiguously
inside `hay`. -/
theorem hasSeg_iff (n hay : List Char) :
    hasSeg n hay = true ↔ ∃ pre post, hay = pre ++ n ++ post := by
  induction hay with
  | nil =>
    rw [hasSeg]
    constructor
    · intro h
      have hn : n = [] := by simpa using h
      exact ⟨[], [], by simp [hn]⟩
    · rintro ⟨pre, post, hp⟩
      have := hp.symm
      rw [List.append_assoc] at this
      obtain ⟨h1, h2⟩ := List.append_eq_nil.mp this
      obtain ⟨h3, _⟩ := List.append_eq_nil.mp h2
      simp [h3]
  | cons c t ih =>
    rw [hasSeg, Bool.or_eq_true]
    constructor
    · rintro (h | h)
      · obtain ⟨rest, hrest⟩ := (segAt_iff n (c :: t)).mp h
        exact ⟨[], rest, by simpa using hrest⟩
      · obtain ⟨pre, post, hp⟩ := ih.mp h
        exact ⟨c :: pre, post, by simp [hp]⟩
    · rintro ⟨pre, post, hp⟩
      cases pre with
      | nil =>
        left
        exact (segAt_iff n (c :: t)).mpr ⟨post, by simpa using hp⟩
      | cons p ps =>
        right
        apply ih.mpr
        refine ⟨ps, post, ?_⟩
        have hp' : c :: t = p :: (ps ++ n ++ post) := by
          rw [hp]
          simp
        injection hp'

/-! ### Lemmas about the allocator -/

/-- Unfolding equation of the date-scan loop. -/
theorem findSlotAux_eq (ledger : List AppRecord) (d : Nat) :
    findSlotAux ledger d = match dayAvail ledger d with
      | some s => (s, d)
      | none => findSlotAux ledger (d + 1) := by
  rw [findSlotAux]
  cases hda : dayAvail ledger d <;> simp [hda]

/-- Past every ledger date, the day log is empty. -/
theorem dayLog_eq_nil_of_gt (ledger : List AppRecord) (d : Nat) (hd : maxDate ledger < d) :
    dayLog ledger d = [] := by
  rw [dayLog, List.filter_eq_nil_iff]
  intro r hr
  have := date_le_maxDate ledger r hr
  simp only [beq_iff_eq]
  omega

/-- Past every ledger date, the first catalog slot is free. -/
theorem dayAvail_of_gt_maxDate (ledger : List AppRecord) (d : Nat) (hd : maxDate ledger < d) :
    dayAvail ledger d = some "09:00-10:00" := by
  rw [dayAvail, dayLog_eq_nil_of_gt ledger d hd]
  rfl

/-- Full characterisation of the scan result: the scan never moves backwards,
every skipped date was unavailable, and the returned date is available with
the returned slot. -/
theorem findSlotAux_spec (ledger : List AppRecord) :
    ∀ k d, maxDate ledger + 1 ≤ d + k →
      d ≤ (findSlotAux ledger d).2 ∧
      (∀ e, d ≤ e → e < (findSlotAux ledger d).2 → dayAvail ledger e = none) ∧
      dayAvail ledger (findSlotAux ledger d).2 = some (findSlotAux ledger d).1 := by
  intro k
  induction k with
  | zero =>
    intro d hd
    have hav : dayAvail ledger d = some "09:00-10:00" :=
      dayAvail_of_gt_maxDate ledger d (by omega)
    have hres : findSlotAux ledger d = ("09:00-10:00", d) := by rw [findSlotAux_eq, hav]
    rw [hres]
    exact ⟨by simp, by intro e he1 he2; simp at he2; omega, by simpa using hav⟩
  | succ k ih =>
    intro d hd
    cases hda : dayAvail ledger d with
    | some s =>
      have hres : findSlotAux ledger d = (s, d) := by rw [findSlotAux_eq, hda]
      rw [hres]
      exact ⟨by simp, by intro e he1 he2; simp at he2; omega, by simpa using hda⟩
    | none =>
      have heq : findSlotAux ledger d = findSlotAux ledger (d + 1) := by
        rw [findSlotAux_eq, hda]
      obtain ⟨ih1, ih2, ih3⟩ := ih (d + 1) (by omega)
      rw [heq]
      refine ⟨by omega, ?_, ih3⟩
      intro e he1 he2
      by_cases he : e = d
      · subst he; exact hda
      · exact ih2 e (by omega) he2

/-- The scan characterisation with the fuel eliminated. -/
theorem findSlotAux_spec' (ledger : List AppRecord) (d : Nat) :
    d ≤ (findSlotAux ledger d).2 ∧
    (∀ e, d ≤ e → e < (findSlotAux ledger d).2 → dayAvail ledger e = none) ∧
    dayAvail ledger (findSlotAux ledger d).2 = some (findSlotAux ledger d).1 :=
  findSlotAux_spec ledger (maxDate ledger + 1) d (by omega)

/-- What a successful `dayAvail` says: day under the daily cap, returned slot
in the catalog with a free seat, and all earlier catalog slots full. -/
theorem dayAvail_some_facts (ledger : List AppRecord) (d : Nat) (s : String)
    (h : dayAvail ledger d = some s) :
    (dayLog ledger d).length < MAX_PER_DAY ∧
    slotCount ledger d s < MAX_PER_SLOT ∧
    ∃ pre post, TIME_SLOTS.map slotLabel = pre ++ s :: post ∧
      ∀ s2 ∈ pre, MAX_PER_SLOT ≤ slotCount ledger d s2 := by
  rw [dayAvail] at h
  split at h
  · next hday =>
    obtain ⟨hp, pre, post, heq, hpre⟩ := find?_decomp _ _ _ h
    refine ⟨hday, by simpa [slotCount] using hp, pre, post, heq, ?_⟩
    intro s2 hs2
    have := hpre s2 hs2
    simp [slotCount] at this ⊢
    omega
  · exact absurd h (by simp)

/-- What a failed `dayAvail` says: the day is at the daily cap, or every
catalog slot is at the slot cap. -/
theorem dayAvail_none_facts (ledger : List AppRecord) (d : Nat)
    (h : dayAvail ledger d = none) :
    MAX_PER_DAY ≤ (dayLog ledger d).length ∨
      ∀ s ∈ TIME_SLOTS.map slotLabel, MAX_PER_SLOT ≤ slotCount ledger d s := by
  rw [dayAvail] at h
  split at h
  · next hday =>
    right
    intro s hs
    have := List.find?_eq_none.mp h s hs
    simp [slotCount] at this ⊢
    omega
  · next hday => left; omega

theorem dayAvail_nil (d : Nat) : dayAvail [] d = some "09:00-10:00" := rfl

theorem findSlot_nil (today : Nat) : findSlot [] today = ("09:00-10:00", today + 1) := by
  rw [findSlot, findSlotAux_eq, dayAvail_nil]

theorem dayLog_replicate (k d0 : Nat) (nm : List Char) (sl : String) :
    dayLog (List.replicate k ⟨nm, d0, sl⟩) d0 = List.replicate k ⟨nm, d0, sl⟩ := by
  rw [dayLog, List.filter_replicate]
  simp

theorem dayAvail_rep19 (d0 : Nat) :
    dayAvail (List.replicate 19 ⟨[], d0, "09:00-10:00"⟩) d0 = some "09:00-10:00" := by
  rw [dayAvail, dayLog_replicate]
  rw [if_pos (by simp [MAX_PER_DAY])]
  have hfilter : (List.replicate 19 (⟨[], d0, "09:00-10:00"⟩ : AppRecord)).filter
      (fun r => r.slot == "09:00-10:00") = List.replicate 19 ⟨[], d0, "09:00-10:00"⟩ := by
    rw [List.filter_replicate]
    simp
  show List.find? _ ("09:00-10:00" :: List.map slotLabel [("10:00", "11:00"), ("11:00", "12:00"),
    ("13:30", "14:30"), ("14:30", "15:00")]) = some "09:00-10:00"
  rw [List.find?_cons_of_pos]
  rw [hfilter]
  simp [MAX_PER_SLOT]

theorem findSlot_rep19 (t : Nat) :
    findSlot (List.replicate 19 ⟨[], t + 1, "09:00-10:00"⟩) t = ("09:00-10:00", t + 1) := by
  rw [findSlot, findSlotAux_eq, dayAvail_rep19]

theorem dayAvail_rep20 (d0 : Nat) :
    dayAvail (List.replicate 20 ⟨[], d0, "09:00-10:00"⟩) d0 = some "10:00-11:00" := by
  rw [dayAvail, dayLog_replicate]
  rw [if_pos (by simp [MAX_PER_DAY])]
  have hfilter1 : (List.replicate 20 (⟨[], d0, "09:00-10:00"⟩ : AppRecord)).filter
      (fun r => r.slot == "09:00-10:00") = List.replicate 20 ⟨[], d0, "09:00-10:00"⟩ := by
    rw [List.filter_replicate]
    simp
  have hfilter2 : (List.replicate 20 (⟨[], d0, "09:00-10:00"⟩ : AppRecord)).filter
      (fun r => r.slot == "10:00-11:00") = [] := by
    rw [List.filter_replicate]
    simp
  show List.find? _ ("09:00-10:00" :: "10:00-11:00" :: List.map slotLabel
    [("11:00", "12:00"), ("13:30", "14:30"), ("14:30", "15:00")]) = some "10:00-11:00"
  rw [List.find?_cons_of_neg, List.find?_cons_of_pos]
  · rw [hfilter2]
    simp [MAX_PER_SLOT]
  · rw [hfilter1]
    simp [MAX_PER_SLOT]

theorem findSlot_rep20 (t : Nat) :
    findSlot (List.replicate 20 ⟨[], t + 1, "09:00-10:00"⟩) t = ("10:00-11:00", t + 1) := by
  rw [findSlot, findSlotAux_eq, dayAvail_rep20]

/-- Appending one record increments exactly the count of its own
(date, slot) pair. -/
theorem slotCount_append (ledger : List AppRecord) (rec : AppRecord) (d : Nat) (s : String) :
    slotCount (ledger ++ [rec]) d s =
      slotCount ledger d s + (if rec.date = d ∧ rec.slot = s then 1 else 0) := by
  rw [slotCount, slotCount, dayLog, dayLog, List.filter_append, List.filter_append,
    List.length_append]
  congr 1
  by_cases h1 : rec.date = d
  · by_cases h2 : rec.slot = s
    · rw [if_pos ⟨h1, h2⟩]
      simp [h1, h2]
    · rw [if_neg (fun hc => h2 hc.2)]
      simp [h1, h2]
  · rw [if_neg (fun hc => h1 hc.1)]
    simp [h1]

/-- The slot returned by `findSlot` has a free seat in the scanned ledger. -/
theorem findSlot_slot_free (ledger : List AppRecord) (today : Nat) :
    slotCount ledger (findSlot ledger today).2 (findSlot ledger today).1 < MAX_PER_SLOT := by
  have h := (findSlotAux_spec' ledger (today + 1)).2.2
  exact (dayAvail_some_facts ledger _ _ h).2.1

theorem seqReserve_cons (today : Nat) (ledger : List AppRecord) (n : List Char)
    (ns : List (List Char)) :
    seqReserve today ledger (n :: ns) =
      seqReserve today (ledger ++ [⟨n, (findSlot ledger today).2, (findSlot ledger today).1⟩]) ns :=
  rfl

/-! ### Branch lemmas for the submission pipeline -/

theorem submit_consent (inp : PipelineInput) (h : inp.agreement = false) :
    render_student_view_submit inp = ⟨.consentMissing, [], inp.ledgerStore⟩ := by
  rw [render_student_view_submit, if_pos h]

theorem submit_fields (inp : PipelineInput) (h1 : inp.agreement = true)
    (h2 : inp.fieldsPresent = false) :
    render_student_view_submit inp = ⟨.fieldsMissing, [], inp.ledgerStore⟩ := by
  rw [render_student_view_submit, if_neg (by simp [h1]), if_pos h2]

theorem submit_verify_ocr (inp : PipelineInput) (h1 : inp.agreement = true)
    (h2 : inp.fieldsPresent = true)
    (hv : verifyIdentity inp.name inp.ocr_text = .ocrUnavailable) :
    render_student_view_submit inp = ⟨.ocrUnavailable, [], inp.ledgerStore⟩ := by
  rw [render_student_view_submit, if_neg (by simp [h1]), if_neg (by simp [h2]), hv]

theorem submit_verify_insufficient (inp : PipelineInput) (h1 : inp.agreement = true)
    (h2 : inp.fieldsPresent = true)
    (hv : verifyIdentity inp.name inp.ocr_text = .nameInsufficient) :
    render_student_view_submit inp = ⟨.nameInsufficient, [], inp.ledgerStore⟩ := by
  rw [render_student_view_submit, if_neg (by simp [h1]), if_neg (by simp [h2]), hv]

theorem submit_verify_mismatch (inp : PipelineInput) (h1 : inp.agreement = true)
    (h2 : inp.fieldsPresent = true)
    (hv : verifyIdentity inp.name inp.ocr_text = .identityMismatch) :
    render_student_view_submit inp = ⟨.identityMismatch, [], inp.ledgerStore⟩ := by
  rw [render_student_view_submit, if_neg (by simp [h1]), if_neg (by simp [h2]), hv]

theorem submit_no_match (inp : PipelineInput) (h1 : inp.agreement = true)
    (h2 : inp.fieldsPresent = true)
    (hv : verifyIdentity inp.name inp.ocr_text = .ok)
    (hm : match_name inp.name (some inp.df) = none) :
    render_student_view_submit inp =
      ⟨.nameNotFound, [.fileUpload, .rosterLookup], inp.ledgerStore⟩ := by
  rw [render_student_view_submit, if_neg (by simp [h1]), if_neg (by simp [h2]), hv, hm]

theorem submit_no_slot (inp : PipelineInput) (matched : StudentRow) (h1 : inp.agreement = true)
    (h2 : inp.fieldsPresent = true)
    (hv : verifyIdentity inp.name inp.ocr_text = .ok)
    (hm : match_name inp.name (some inp.df) = some matched)
    (hs : get_available_slot inp.ledgerStore inp.today = none) :
    render_student_view_submit inp =
      ⟨.slotsExhausted, [.fileUpload, .rosterLookup, .ledgerRead], inp.ledgerStore⟩ := by
  rw [render_student_view_submit, if_neg (by simp [h1]), if_neg (by simp [h2]), hv, hm, hs]

theorem submit_issue (inp : PipelineInput) (matched : StudentRow) (slot : String) (date : Nat)
    (h1 : inp.agreement = true) (h2 : inp.fieldsPresent = true)
    (hv : verifyIdentity inp.name inp.ocr_text = .ok)
    (hm : match_name inp.name (some inp.df) = some matched)
    (hs : get_available_slot inp.ledgerStore inp.today = some (slot, date))
    (hd : inp.docGenOk = true) :
    render_student_view_submit inp =
      ⟨.documentIssued slot date,
       [.fileUpload, .rosterLookup, .ledgerRead, .docGen, .appendRecord],
       log_appointment inp.ledgerStore inp.appendOk matched.full_name slot date⟩ := by
  rw [render_student_view_submit, if_neg (by simp [h1]), if_neg (by simp [h2]), hv, hm, hs]
  simp [hd]

theorem submit_render_fail (inp : PipelineInput) (matched : StudentRow) (slot : String)
    (date : Nat) (h1 : inp.agreement = true) (h2 : inp.fieldsPresent = true)
    (hv : verifyIdentity inp.name inp.ocr_text = .ok)
    (hm : match_name inp.name (some inp.df) = some matched)
    (hs : get_available_slot inp.ledgerStore inp.today = some (slot, date))
    (hd : inp.docGenOk = false) :
    render_student_view_submit inp =
      ⟨.renderFailure, [.fileUpload, .rosterLookup, .ledgerRead, .docGen], inp.ledgerStore⟩ := by
  rw [render_student_view_submit, if_neg (by simp [h1]), if_neg (by simp [h2]), hv, hm, hs]
  simp [hd]

/-- Concrete roster match used by the witnesses: the query and the single
roster key normalize to the same four-letter key, which scores 100. -/
theorem match_name_concrete :
    match_name ("اب جد".data)
        (some ⟨true, [⟨"اب جد".data, "ابجد".data⟩]⟩) =
      some ⟨"اب جد".data, "ابجد".data⟩ := by
  have hq : removeSpaces (normalize_arabic_name ("اب جد".data)) = ['ا', 'ب', 'ج', 'د'] := by
    decide
  have hextract : extract_best ['ا', 'ب', 'ج', 'د'] [['ا', 'ب', 'ج', 'د']] =
      some (['ا', 'ب', 'ج', 'د'], (100 : ℚ)) := by
    have h0 : extract_best ['ا', 'ب', 'ج', 'د'] [['ا', 'ب', 'ج', 'د']] =
        some (['ا', 'ب', 'ج', 'د'], prScore ['ا', 'ب', 'ج', 'د'] ['ا', 'ب', 'ج', 'د']) := rfl
    rw [h0, prScore_self]
  rw [match_name]
  simp only [hq, List.map_cons, List.map_nil]
  rw [if_neg (by decide : ¬ ((true : Bool) = false))]
  rw [hextract]
  show (if (90 : ℚ) ≤ 100 then
      match List.find? (fun r => r.normalized_name_match == ['ا', 'ب', 'ج', 'د'])
        [(⟨"اب جد".data, "ابجد".data⟩ : StudentRow)] with
      | some row => some row
      | none => none
    else none) = some ⟨"اب جد".data, "ابجد".data⟩
  rw [if_pos (by norm_num : (90 : ℚ) ≤ 100)]
  rw [List.find?_cons_of_pos _ (by decide)]

/-! ### Claim theorems -/

/-- C1: `findSlot` returns the earliest candidate.  Scanning from
`today + 1` upward, every skipped date either was at the daily cap
(`MAX_PER_DAY` total records, per-slot counts never consulted) or had every
catalog slot at the slot cap; at the returned date the day is under the
daily cap and the returned slot is the first catalog slot under
`MAX_PER_SLOT`.  On an empty ledger the result is tomorrow's first slot;
with `MAX_PER_SLOT - 1` records on tomorrow's first slot that slot is still
returned, and at `MAX_PER_SLOT` it rolls over to the second slot. -/
theorem get_available_slot_earliest (ledger : List AppRecord) (today : Nat) :
    today + 1 ≤ (findSlot ledger today).2 ∧
    (∀ e, today + 1 ≤ e → e < (findSlot ledger today).2 →
      MAX_PER_DAY ≤ (dayLog ledger e).length ∨
        ∀ s ∈ TIME_SLOTS.map slotLabel, MAX_PER_SLOT ≤ slotCount ledger e s) ∧
    (dayLog ledger (findSlot ledger today).2).length < MAX_PER_DAY ∧
    slotCount ledger (findSlot ledger today).2 (findSlot ledger today).1 < MAX_PER_SLOT ∧
    (∃ pre post, TIME_SLOTS.map slotLabel = pre ++ (findSlot ledger today).1 :: post ∧
      ∀ s ∈ pre, MAX_PER_SLOT ≤ slotCount ledger (findSlot ledger today).2 s) ∧
    findSlot ([] : List AppRecord) today = ("09:00-10:00", today + 1) ∧
    findSlot (List.replicate (MAX_PER_SLOT - 1) ⟨[], today + 1, "09:00-10:00"⟩) today =
      ("09:00-10:00", today + 1) ∧
    findSlot (List.replicate MAX_PER_SLOT ⟨[], today + 1, "09:00-10:00"⟩) today =
      ("10:00-11:00", today + 1) := by
  obtain ⟨hs1, hs2, hs3⟩ := findSlotAux_spec' ledger (today + 1)
  obtain ⟨hf1, hf2, hf3⟩ := dayAvail_some_facts ledger _ _ hs3
  exact ⟨hs1, fun e he1 he2 => dayAvail_none_facts ledger e (hs2 e he1 he2), hf1, hf2, hf3,
    findSlot_nil today, findSlot_rep19 today, findSlot_rep20 today⟩

/-- C1 witness: on the empty ledger with `today = 0`. -/
theorem get_available_slot_earliest_witness :
    1 ≤ (findSlot ([] : List AppRecord) 0).2 ∧
    findSlot ([] : List AppRecord) 0 = ("09:00-10:00", 1) :=
  ⟨(get_available_slot_earliest [] 0).1,
   (get_available_slot_earliest [] 0).2.2.2.2.2.1⟩

/-- C2 counterexample: the normalizer is not idempotent.  For the input
`الال`, one pass strips one leading `ال` leaving `ال`, and a second pass
strips that too, giving the empty string. -/
theorem normalize_not_idempotent :
    normalize_arabic_name (normalize_arabic_name ['ا', 'ل', 'ا', 'ل']) ≠
      normalize_arabic_name ['ا', 'ل', 'ا', 'ل'] := by decide

/-- C2 (amended): the normalizer is idempotent on every input whose
normalized form does not itself start with the article `ال` and does not end
with `ة`. -/
theorem normalize_idempotent_conditional (x : List Char)
    (h1 : (normalize_arabic_name x).take 2 ≠ ['ا', 'ل'])
    (h2 : (normalize_arabic_name x).getLast? ≠ some 'ة') :
    normalize_arabic_name (normalize_arabic_name x) = normalize_arabic_name x := by
  apply normalize_arabic_name_fixed _ (mem_normalize x) h1 h2
  rw [normalize_arabic_name]
  exact stripStr_collapseWs_idem _

/-- C2 witness: the name `احمد` satisfies both side conditions and is a
fixed point of a second normalization pass. -/
theorem normalize_idempotent_conditional_witness :
    (normalize_arabic_name "احمد".data).take 2 ≠ ['ا', 'ل'] ∧
    (normalize_arabic_name "احمد".data).getLast? ≠ some 'ة' ∧
    normalize_arabic_name (normalize_arabic_name "احمد".data) =
      normalize_arabic_name "احمد".data :=
  ⟨by decide, by decide, normalize_idempotent_conditional _ (by decide) (by decide)⟩

/-- C6 counterexample: step 3 is not just "fold a trailing ة".  Python's `$`
also matches just before a string-final newline, so the source folds the `ة`
of `"ة\n"` although it is not the last character; the spec's literal step
list leaves it unchanged. -/
theorem normalize_spec_step3_newline :
    normalize_arabic_name ['ة', '\n'] = ['ه'] ∧
    specNormalizeLiteral ['ة', '\n'] = ['ة'] ∧
    normalize_arabic_name ['ة', '\n'] ≠ specNormalizeLiteral ['ة', '\n'] :=
  ⟨by decide, by decide, by decide⟩

/-- C6 (amended): the normalizer equals the spec's five-step description with
step 3 amended to also fold a `ة` immediately before a string-final newline;
it is total, maps the empty / numeric / Latin strings to the empty string,
and every output character is a space or a kept Arabic letter. -/
theorem normalize_total_and_spec (l : List Char) :
    normalize_arabic_name l = specNormalizeAmended l ∧
    normalize_arabic_name [] = [] ∧
    normalize_arabic_name "123".data = [] ∧
    normalize_arabic_name "abc".data = [] ∧
    ∀ c ∈ normalize_arabic_name l, c = ' ' ∨ isArabicLetter c = true :=
  ⟨normalize_eq_specAmended l, by decide, by decide, by decide,
   fun c hc => (mem_normalize l c hc).imp id And.left⟩

/-- C6 witness: the spec equality evaluated at a concrete input. -/
theorem normalize_total_and_spec_witness :
    normalize_arabic_name ['ة', 'ا'] = specNormalizeAmended ['ة', 'ا'] :=
  (normalize_total_and_spec ['ة', 'ا']).1

/-- C7: the unbounded forward scan terminates on every finite ledger: the
caps are positive, every date past the last ledger date immediately yields
the first catalog slot, and the returned date never exceeds
`max (today + 1) (maxDate ledger + 1)`. -/
theorem findSlot_terminates (ledger : List AppRecord) (today : Nat) :
    0 < MAX_PER_SLOT ∧ 0 < MAX_PER_DAY ∧
    (∀ d, maxDate ledger < d → dayAvail ledger d = some "09:00-10:00") ∧
    (findSlot ledger today).2 ≤ max (today + 1) (maxDate ledger + 1) := by
  refine ⟨by decide, by decide, fun d hd => dayAvail_of_gt_maxDate ledger d hd, ?_⟩
  by_contra hc
  push_neg at hc
  have h1 : today + 1 ≤ max (today + 1) (maxDate ledger + 1) := le_max_left _ _
  have h2 : maxDate ledger + 1 ≤ max (today + 1) (maxDate ledger + 1) := le_max_right _ _
  have hnone := (findSlotAux_spec' ledger (today + 1)).2.1
    (max (today + 1) (maxDate ledger + 1)) h1 hc
  rw [dayAvail_of_gt_maxDate ledger _ (by omega)] at hnone
  cases hnone

/-- C7 witness: the bound evaluated on a one-record ledger. -/
theorem findSlot_terminates_witness :
    (findSlot ([⟨[], 5, "09:00-10:00"⟩] : List AppRecord) 0).2 ≤
      max (0 + 1) (maxDate [⟨[], 5, "09:00-10:00"⟩] + 1) :=
  (findSlot_terminates [⟨[], 5, "09:00-10:00"⟩] 0).2.2.2

/-- C3: `match_name` computes the space-stripped normalized query key, picks
the single best roster key by partial-ratio score (earliest on ties),
accepts only at score ≥ 90, and then returns the first roster record whose
precomputed key equals the winning key; a missing dataframe, a missing key
column, an empty roster, or a best score below 90 all give `none` (the
function is total, so it never throws). -/
theorem match_name_spec (q : List Char) :
    match_name q none = none ∧
    (∀ d : StudentDF, d.has_key_column = false → match_name q (some d) = none) ∧
    (∀ d : StudentDF, d.rows = [] → match_name q (some d) = none) ∧
    (∀ (d : StudentDF) (r : StudentRow), match_name q (some d) = some r →
      r ∈ d.rows ∧
      90 ≤ prScore (removeSpaces (normalize_arabic_name q)) r.normalized_name_match ∧
      (∀ r2 ∈ d.rows,
        prScore (removeSpaces (normalize_arabic_name q)) r2.normalized_name_match ≤
          prScore (removeSpaces (normalize_arabic_name q)) r.normalized_name_match) ∧
      ∃ pre post, d.rows = pre ++ r :: post ∧
        ∀ r2 ∈ pre, r2.normalized_name_match ≠ r.normalized_name_match) ∧
    (∀ d : StudentDF, d.has_key_column = true →
      (∀ r2 ∈ d.rows,
        prScore (removeSpaces (normalize_arabic_name q)) r2.normalized_name_match < 90) →
      match_name q (some d) = none) := by
  refine ⟨rfl, ?_, ?_, ?_, ?_⟩
  · intro d h
    rw [match_name]
    simp [h]
  · intro d h
    rw [match_name]
    by_cases hk : d.has_key_column = false
    · simp [hk]
    · rw [if_neg hk, h]
      simp [extract_best]
  · intro d r h
    simp only [match_name] at h
    split at h
    · exact absurd h (by simp)
    · cases he : extract_best (removeSpaces (normalize_arabic_name q))
          (d.rows.map (fun r2 => r2.normalized_name_match)) with
      | none => rw [he] at h; exact absurd h (by simp)
      | some p =>
        obtain ⟨bn, bs⟩ := p
        rw [he] at h
        have h' : (if 90 ≤ bs then
            (match d.rows.find? (fun r2 => r2.normalized_name_match == bn) with
             | some row => some row
             | none => none)
          else none) = some r := h
        split at h'
        · next h90 =>
          cases hf : d.rows.find? (fun r2 => r2.normalized_name_match == bn) with
          | none => rw [hf] at h'; exact absurd h' (by simp)
          | some row =>
            rw [hf] at h'
            have hrr : row = r := by
              have h'' : some row = some r := h'
              injection h''
            subst hrr
            obtain ⟨hp, pre, post, heq, hpre⟩ := find?_decomp _ _ _ hf
            have hkey : row.normalized_name_match = bn := by simpa using hp
            obtain ⟨hbmem, hbs, hmax⟩ := extract_best_some _ _ _ _ he
            refine ⟨List.mem_of_find?_eq_some hf, ?_, ?_, pre, post, heq, ?_⟩
            · rw [hkey, ← hbs]
              exact h90
            · intro r2 hr2
              rw [hkey, ← hbs]
              exact hmax _ (List.mem_map_of_mem _ hr2)
            · intro r2 hr2 hceq
              have hfalse := hpre r2 hr2
              rw [hceq, hkey] at hfalse
              simp at hfalse
        · exact absurd h' (by simp)
  · intro d hk hlt
    simp only [match_name]
    rw [if_neg (by simp [hk])]
    cases he : extract_best (removeSpaces (normalize_arabic_name q))
        (d.rows.map (fun r2 => r2.normalized_name_match)) with
    | none => rfl
    | some p =>
      obtain ⟨bn, bs⟩ := p
      obtain ⟨hbmem, hbs, _⟩ := extract_best_some _ _ _ _ he
      obtain ⟨r2, hr2, hr2eq⟩ := List.mem_map.mp hbmem
      have hlt' : bs < 90 := by
        rw [hbs, ← hr2eq]
        exact hlt r2 hr2
      show (if 90 ≤ bs then
          (match d.rows.find? (fun r3 => r3.normalized_name_match == bn) with
           | some row => some row
           | none => none)
        else none) = none
      rw [if_neg (not_le.mpr hlt')]

/-- C3 witness: the concrete one-row roster where the query matches
exactly. -/
theorem match_name_spec_witness :
    match_name ("اب جد".data) none = none ∧
    (⟨"اب جد".data, "ابجد".data⟩ : StudentRow) ∈
      [(⟨"اب جد".data, "ابجد".data⟩ : StudentRow)] :=
  ⟨(match_name_spec "اب جد".data).1,
   ((match_name_spec "اب جد".data).2.2.2.1 ⟨true, [⟨"اب جد".data, "ابجد".data⟩]⟩
     ⟨"اب جد".data, "ابجد".data⟩ match_name_concrete).1⟩

/-- C4: identity verification.  Empty OCR text is its own failure kind,
reported before any comparison; a claimed name with fewer than two
whitespace tokens is its own failure kind, reported before the substring
comparison; and the check passes exactly when the space-stripped normalized
key of the first two name tokens occurs contiguously inside the
space-stripped normalized OCR text. -/
theorem verifyIdentity_spec (name ocr : List Char) :
    (ocr = [] → verifyIdentity name ocr = .ocrUnavailable) ∧
    (ocr ≠ [] → (splitWs (stripStr name)).length < 2 →
      verifyIdentity name ocr = .nameInsufficient) ∧
    (verifyIdentity name ocr = .ok ↔
      ocr ≠ [] ∧ 2 ≤ (splitWs (stripStr name)).length ∧
      ∃ pre post, removeSpaces (normalize_arabic_name ocr) =
        pre ++ removeSpaces (normalize_arabic_name
          (joinSpace ((splitWs (stripStr name)).take 2))) ++ post) := by
  refine ⟨?_, ?_, ?_⟩
  · intro h
    simp only [verifyIdentity]
    rw [if_pos h]
  · intro h1 h2
    simp only [verifyIdentity]
    rw [if_neg h1, if_pos h2]
  · constructor
    · intro h
      simp only [verifyIdentity] at h
      split at h
      · exact absurd h (by simp)
      · next h1 =>
        split at h
        · exact absurd h (by simp)
        · next h2 =>
          split at h
          · next h3 =>
            obtain ⟨pre, post, hp⟩ := (hasSeg_iff _ _).mp h3
            exact ⟨h1, by omega, pre, post, hp⟩
          · exact absurd h (by simp)
    · rintro ⟨h1, h2, pre, post, hp⟩
      simp only [verifyIdentity]
      rw [if_neg h1, if_neg (by omega), if_pos ((hasSeg_iff _ _).mpr ⟨pre, post, hp⟩)]

/-- C4 witness: empty OCR text on a two-token name. -/
theorem verifyIdentity_spec_witness :
    verifyIdentity "اب جد".data [] = .ocrUnavailable :=
  (verifyIdentity_spec "اب جد".data []).1 rfl

/-- Failing appends are swallowed: `log_appointment` leaves the store
unchanged and returns normally. -/
theorem log_appointment_fail (st : LedgerStore) (n : List Char) (s : String) (d : Nat) :
    log_appointment st false n s d = st := by
  cases st <;> rfl

/-- C5: stage order of the submission pipeline.  With consent unset the run
terminates at `consentMissing` with no effects at all (in particular no
roster lookup and no ledger read); document generation happens only after
identity verification and roster match both succeeded; the append is only
reached when document generation succeeded; and when generation fails the
ledger store is untouched. -/
theorem pipeline_stage_order (inp : PipelineInput) :
    (inp.agreement = false →
      render_student_view_submit inp = ⟨.consentMissing, [], inp.ledgerStore⟩) ∧
    (Effect.docGen ∈ (render_student_view_submit inp).effects →
      verifyIdentity inp.name inp.ocr_text = .ok ∧
      (match_name inp.name (some inp.df)).isSome = true) ∧
    (Effect.appendRecord ∈ (render_student_view_submit inp).effects →
      Effect.docGen ∈ (render_student_view_submit inp).effects ∧ inp.docGenOk = true) ∧
    (inp.docGenOk = false → (render_student_view_submit inp).ledgerAfter = inp.ledgerStore) := by
  by_cases hag : inp.agreement = false
  · have hres := submit_consent inp hag
    refine ⟨fun _ => hres, ?_, ?_, ?_⟩ <;> rw [hres] <;> simp
  · have hag' : inp.agreement = true := by
      revert hag; cases inp.agreement <;> simp
    by_cases hf : inp.fieldsPresent = false
    · have hres := submit_fields inp hag' hf
      refine ⟨?_, ?_, ?_, ?_⟩ <;> rw [hres] <;> simp [hag']
    · have hf' : inp.fieldsPresent = true := by
        revert hf; cases inp.fieldsPresent <;> simp
      cases hv : verifyIdentity inp.name inp.ocr_text with
      | ocrUnavailable =>
        have hres := submit_verify_ocr inp hag' hf' hv
        refine ⟨?_, ?_, ?_, ?_⟩ <;> rw [hres] <;> simp [hag']
      | nameInsufficient =>
        have hres := submit_verify_insufficient inp hag' hf' hv
        refine ⟨?_, ?_, ?_, ?_⟩ <;> rw [hres] <;> simp [hag']
      | identityMismatch =>
        have hres := submit_verify_mismatch inp hag' hf' hv
        refine ⟨?_, ?_, ?_, ?_⟩ <;> rw [hres] <;> simp [hag']
      | ok =>
        cases hm : match_name inp.name (some inp.df) with
        | none =>
          have hres := submit_no_match inp hag' hf' hv hm
          refine ⟨?_, ?_, ?_, ?_⟩ <;> rw [hres] <;> simp [hag']
        | some m =>
          cases hs : get_available_slot inp.ledgerStore inp.today with
          | none =>
            have hres := submit_no_slot inp m hag' hf' hv hm hs
            refine ⟨?_, ?_, ?_, ?_⟩ <;> rw [hres] <;> simp [hag']
          | some p =>
            obtain ⟨sl, dt⟩ := p
            by_cases hd : inp.docGenOk = true
            · have hres := submit_issue inp m sl dt hag' hf' hv hm hs hd
              refine ⟨?_, ?_, ?_, ?_⟩
              · intro hc
                rw [hag'] at hc
                exact Bool.noConfusion hc
              · intro _
                exact ⟨rfl, rfl⟩
              · intro _
                rw [hres]
                simp [hd]
              · intro hdf
                rw [hd] at hdf
                exact Bool.noConfusion hdf
            · have hd' : inp.docGenOk = false := by
                revert hd; cases inp.docGenOk <;> simp
              have hres := submit_render_fail inp m sl dt hag' hf' hv hm hs hd'
              refine ⟨?_, ?_, ?_, ?_⟩
              · intro hc
                rw [hag'] at hc
                exact Bool.noConfusion hc
              · intro _
                exact ⟨rfl, rfl⟩
              · intro hmem
                rw [hres] at hmem
                simp at hmem
              · intro _
                rw [hres]

/-- C5 witness: an unchecked consent box short-circuits the pipeline. -/
theorem pipeline_stage_order_witness :
    render_student_view_submit ⟨false, true, [], [], ⟨true, []⟩, .ok [], true, true, 0⟩ =
      ⟨.consentMissing, [], .ok []⟩ :=
  (pipeline_stage_order ⟨false, true, [], [], ⟨true, []⟩, .ok [], true, true, 0⟩).1 rfl

/-- C9: at the allocator interface an infrastructure failure of the ledger
store is indistinguishable from exhaustion: both a missing sheets client and
a missing `Appointments` worksheet yield the empty result `none`, and the
pipeline then terminates with the `slotsExhausted` ("fully booked")
outcome. -/
theorem ledger_unavailable_reads_as_exhausted (inp : PipelineInput) (t : Nat) :
    get_available_slot .noClient t = none ∧
    get_available_slot .worksheetMissing t = none ∧
    (inp.agreement = true → inp.fieldsPresent = true →
      verifyIdentity inp.name inp.ocr_text = .ok →
      (match_name inp.name (some inp.df)).isSome = true →
      (inp.ledgerStore = .noClient ∨ inp.ledgerStore = .worksheetMissing) →
      (render_student_view_submit inp).outcome = .slotsExhausted) := by
  refine ⟨rfl, rfl, ?_⟩
  intro h1 h2 hv hm hst
  obtain ⟨m, hm'⟩ := Option.isSome_iff_exists.mp hm
  have hs : get_available_slot inp.ledgerStore inp.today = none := by
    rcases hst with h | h <;> rw [h] <;> rfl
  rw [submit_no_slot inp m h1 h2 hv hm' hs]

/-- C9 witness: a successful verification and roster match against a dead
ledger store ends in `slotsExhausted`. -/
theorem ledger_unavailable_reads_as_exhausted_witness :
    (render_student_view_submit ⟨true, true, "اب جد".data, "اب جد".data,
        ⟨true, [⟨"اب جد".data, "ابجد".data⟩]⟩, .noClient, true, true, 0⟩).outcome =
      .slotsExhausted :=
  (ledger_unavailable_reads_as_exhausted
      ⟨true, true, "اب جد".data, "اب جد".data,
        ⟨true, [⟨"اب جد".data, "ابجد".data⟩]⟩, .noClient, true, true, 0⟩ 0).2.2
    rfl rfl (by decide) (by rw [match_name_concrete]; rfl) (Or.inl rfl)

/-- C10: `log_appointment` swallows every append failure and returns
normally, and the pipeline still reports `documentIssued` with the chosen
slot and date while the ledger store is left without the new record. -/
theorem reserve_failure_swallowed (inp : PipelineInput) :
    (∀ (st : LedgerStore) (n : List Char) (s : String) (d : Nat),
      log_appointment st false n s d = st) ∧
    (∀ (m : StudentRow) (s : String) (d : Nat),
      inp.agreement = true → inp.fieldsPresent = true →
      verifyIdentity inp.name inp.ocr_text = .ok →
      match_name inp.name (some inp.df) = some m →
      get_available_slot inp.ledgerStore inp.today = some (s, d) →
      inp.docGenOk = true → inp.appendOk = false →
      (render_student_view_submit inp).outcome = .documentIssued s d ∧
      (render_student_view_submit inp).ledgerAfter = inp.ledgerStore) := by
  refine ⟨log_appointment_fail, ?_⟩
  intro m s d h1 h2 hv hm hs hd hap
  rw [submit_issue inp m s d h1 h2 hv hm hs hd]
  refine ⟨rfl, ?_⟩
  show log_appointment inp.ledgerStore inp.appendOk m.full_name s d = inp.ledgerStore
  rw [hap, log_appointment_fail]

/-- C10 witness: a failing append still reports success on the empty
store. -/
theorem reserve_failure_swallowed_witness :
    (render_student_view_submit ⟨true, true, "اب جد".data, "اب جد".data,
        ⟨true, [⟨"اب جد".data, "ابجد".data⟩]⟩, .ok [], true, false, 0⟩).outcome =
      .documentIssued "09:00-10:00" 1 ∧
    (render_student_view_submit ⟨true, true, "اب جد".data, "اب جد".data,
        ⟨true, [⟨"اب جد".data, "ابجد".data⟩]⟩, .ok [], true, false, 0⟩).ledgerAfter =
      .ok [] :=
  (reserve_failure_swallowed
      ⟨true, true, "اب جد".data, "اب جد".data,
        ⟨true, [⟨"اب جد".data, "ابجد".data⟩]⟩, .ok [], true, false, 0⟩).2
    ⟨"اب جد".data, "ابجد".data⟩ "09:00-10:00" 1 rfl rfl (by decide) match_name_concrete
    (by show some (findSlot [] 0) = _; rw [findSlot_nil]) rfl rfl

/-- C8 counterexample: the interleaved cap claim is false.  From a ledger
with 19 reservations on tomorrow's first slot (within all caps) and two
ready clients, both clients can read before either writes; both see a free
seat in the first slot and both append, reaching 21 > `MAX_PER_SLOT`
records for (date 1, "09:00-10:00"). -/
theorem race_cap_violation :
    (∀ d s, slotCount raceInit.ledger d s ≤ MAX_PER_SLOT) ∧
    raceInit.clients = [.ready, .ready] ∧
    ∃ st, Relation.ReflTransGen (RaceStep 0) raceInit st ∧
      ¬ ∀ d s, slotCount st.ledger d s ≤ MAX_PER_SLOT := by
  refine ⟨?_, rfl, ?_⟩
  · intro d s
    calc slotCount raceInit.ledger d s ≤ (dayLog raceInit.ledger d).length :=
        List.length_filter_le _ _
      _ ≤ raceInit.ledger.length := List.length_filter_le _ _
      _ ≤ MAX_PER_SLOT := by decide
  · have hfs : findSlot raceInit.ledger 0 = ("09:00-10:00", 1) := findSlot_rep19 0
    refine ⟨⟨raceInit.ledger ++ [⟨[], 1, "09:00-10:00"⟩] ++ [⟨[], 1, "09:00-10:00"⟩],
      [.finished, .finished]⟩, ?_, ?_⟩
    · have s1 : RaceStep 0 raceInit
          ⟨raceInit.ledger, [.holding "09:00-10:00" 1, .ready]⟩ := by
        have h := @RaceStep.read 0 raceInit.ledger [.ready, .ready] 0 rfl
        rw [hfs] at h
        exact h
      have s2 : RaceStep 0 ⟨raceInit.ledger, [.holding "09:00-10:00" 1, .ready]⟩
          ⟨raceInit.ledger, [.holding "09:00-10:00" 1, .holding "09:00-10:00" 1]⟩ := by
        have h := @RaceStep.read 0 raceInit.ledger
          [.holding "09:00-10:00" 1, .ready] 1 rfl
        rw [hfs] at h
        exact h
      have s3 : RaceStep 0
          ⟨raceInit.ledger, [.holding "09:00-10:00" 1, .holding "09:00-10:00" 1]⟩
          ⟨raceInit.ledger ++ [⟨[], 1, "09:00-10:00"⟩],
           [.finished, .holding "09:00-10:00" 1]⟩ :=
        RaceStep.write raceInit.ledger
          [.holding "09:00-10:00" 1, .holding "09:00-10:00" 1] 0 "09:00-10:00" 1 [] rfl
      have s4 : RaceStep 0
          ⟨raceInit.ledger ++ [⟨[], 1, "09:00-10:00"⟩],
           [.finished, .holding "09:00-10:00" 1]⟩
          ⟨raceInit.ledger ++ [⟨[], 1, "09:00-10:00"⟩] ++ [⟨[], 1, "09:00-10:00"⟩],
           [.finished, .finished]⟩ :=
        RaceStep.write (raceInit.ledger ++ [⟨[], 1, "09:00-10:00"⟩])
          [.finished, .holding "09:00-10:00" 1] 1 "09:00-10:00" 1 [] rfl
      exact .head s1 (.head s2 (.head s3 (.head s4 .refl)))
    · intro hall
      exact absurd (hall 1 "09:00-10:00") (by decide)

/-- C8 (amended): under serialized execution — each client's append
completes before the next client's `findSlot` reads — the per-slot cap is
preserved: starting from any ledger within the cap, any number of
findSlot-then-reserve rounds leaves every (date, slot) pair at or below
`MAX_PER_SLOT`. -/
theorem seqReserve_preserves_cap (today : Nat) (names : List (List Char))
    (ledger : List AppRecord)
    (h : ∀ d s, slotCount ledger d s ≤ MAX_PER_SLOT) :
    ∀ d s, slotCount (seqReserve today ledger names) d s ≤ MAX_PER_SLOT := by
  induction names generalizing ledger with
  | nil => exact h
  | cons n ns ih =>
    rw [seqReserve_cons]
    apply ih
    intro d s
    rw [slotCount_append]
    by_cases hps :
        (⟨n, (findSlot ledger today).2, (findSlot ledger today).1⟩ : AppRecord).date = d ∧
        (⟨n, (findSlot ledger today).2, (findSlot ledger today).1⟩ : AppRecord).slot = s
    · rw [if_pos hps]
      have hd : (findSlot ledger today).2 = d := hps.1
      have hs : (findSlot ledger today).1 = s := hps.2
      subst hd
      subst hs
      have := findSlot_slot_free ledger today
      omega
    · rw [if_neg hps]
      have := h d s
      omega

/-- C8 witness: two serialized reservations on the empty ledger stay within
the cap. -/
theorem seqReserve_preserves_cap_witness :
    slotCount (seqReserve 0 [] [[], []]) 1 "09:00-10:00" ≤ MAX_PER_SLOT :=
  seqReserve_preserves_cap 0 [[], []] []
    (fun d s => by simp [slotCount, dayLog]) 1 "09:00-10:00"
